import Mathlib

/-!
# Lung Perfusion Analysis — verification of the image-processing pipeline

Shallow embedding of the pipeline in `src/main.ipynb` of the
Lung-Perfusion-Analysis repository.  Images (numpy 2-D `uint8` arrays) are
modelled as a height, a width and a row-major flat list of natural-number
pixel values; every pipeline stage is a computable function on this
representation.

External library calls are embedded by their documented semantics:

* `cv2.threshold(img, 66, 255, cv2.THRESH_BINARY)`: output pixel is 255 when
  the source pixel is strictly greater than 66, else 0.
* `cv2.getStructuringElement(cv2.MORPH_ELLIPSE, (w, h))`: the filled discrete
  ellipse inscribed in a `w × h` rectangle (OpenCV's `ksize` is
  (width, height)); the generation formula is reproduced in `ellipseKernel`.
* `cv2.morphologyEx` with `cv2.MORPH_OPEN` / `cv2.MORPH_CLOSE`: erosion and
  dilation passes with the default anchor (kernel centre) and the default
  border `cv2.morphologyDefaultBorderValue()`, which OpenCV replaces by
  `+DBL_MAX` for erosion and `-DBL_MAX` for dilation, so out-of-bounds
  samples never constrain the minimum (erosion) nor contribute to the
  maximum (dilation).
* `cv2.connectedComponentsWithStats(img, connectivity=8)`: left abstract; the
  extractor is verified against any labelling satisfying its contract
  (`IsCCLabeling`).
* `np.argsort` (default `kind='quicksort'`): modelled as a stable ascending
  sort; NumPy's introsort runs a stable insertion sort on arrays shorter
  than 16 elements, so the model is exact for fewer than 16 labels.

Plotting (`matplotlib`, `seaborn` palettes) and file I/O (`cv2.imread`) are
presentation/input concerns with no effect on the returned data and are not
modelled.
-/

/-- A 2-D image: `h` rows, `w` columns, pixel values stored row-major in
`data` (models a numpy 2-D array of unsigned integers). -/
structure Img where
  h : Nat
  w : Nat
  data : List Nat
deriving DecidableEq, Repr

/-- Pixel access `img[y, x]`, row-major; reads outside `data` default to 0. -/
def Img.pix (g : Img) (y x : Nat) : Nat :=
  g.data.getD (y * g.w + x) 0

/-- Build an `h × w` image from a pixel formula. -/
def mkImg (h w : Nat) (f : Nat → Nat → Nat) : Img :=
  ⟨h, w, (List.range (h * w)).map (fun i => f (i / w) (i % w))⟩

theorem mkImg_h (h w : Nat) (f : Nat → Nat → Nat) : (mkImg h w f).h = h := rfl

theorem mkImg_w (h w : Nat) (f : Nat → Nat → Nat) : (mkImg h w f).w = w := rfl

theorem index_lt {y x h w : Nat} (hy : y < h) (hx : x < w) :
    y * w + x < h * w := by
  calc y * w + x < y * w + w := by omega
    _ = (y + 1) * w := by ring
    _ ≤ h * w := Nat.mul_le_mul_right w hy

theorem mkImg_pix {h w : Nat} (f : Nat → Nat → Nat) {y x : Nat}
    (hy : y < h) (hx : x < w) : (mkImg h w f).pix y x = f y x := by
  have hw : 0 < w := Nat.lt_of_le_of_lt (Nat.zero_le x) hx
  have hidx : y * w + x < h * w := index_lt hy hx
  unfold mkImg Img.pix
  simp only [List.getD_eq_getElem?_getD, List.getElem?_map,
    List.getElem?_range hidx, Option.map_some', Option.getD_some]
  have h1 : (y * w + x) / w = y := by
    rw [Nat.add_comm, Nat.mul_comm, Nat.add_mul_div_left x y hw,
      Nat.div_eq_of_lt hx, Nat.zero_add]
  have h2 : (y * w + x) % w = x := by
    rw [Nat.add_comm, Nat.mul_comm, Nat.add_mul_mod_self_left,
      Nat.mod_eq_of_lt hx]
  rw [h1, h2]

/-- Embeds `load_and_binarize_image` (src/main.ipynb): after loading, the
image is binarized by `cv2.threshold(image, 66, 255, cv2.THRESH_BINARY)`,
whose documented semantics is `dst = 255 if src > 66 else 0` (strict
comparison).  File loading and the matplotlib display are I/O with no effect
on the returned array, so the embedding takes the already-loaded grayscale
image as input. -/
def load_and_binarize_image (image : Img) : Img :=
  mkImg image.h image.w (fun y x => if 66 < image.pix y x then 255 else 0)

/-- **C5**: for every non-empty grayscale image, the binarizer returns a mask
of the same dimensions in which each pixel equals 255 iff the source
intensity at that pixel is strictly greater than the threshold 66, and
equals 0 otherwise. -/
theorem C5_binarizer_strict_threshold (image : Img)
    (hne : 0 < image.h ∧ 0 < image.w) :
    (load_and_binarize_image image).h = image.h ∧
    (load_and_binarize_image image).w = image.w ∧
    (∀ y, y < image.h → ∀ x, x < image.w →
      ((load_and_binarize_image image).pix y x = 255 ↔ 66 < image.pix y x) ∧
      ((load_and_binarize_image image).pix y x = 0 ↔ ¬ 66 < image.pix y x)) := by
  refine ⟨rfl, rfl, fun y hy x hx => ?_⟩
  rw [load_and_binarize_image, mkImg_pix _ hy hx]
  by_cases hc : 66 < image.pix y x <;> simp [hc]

/-! ## Morphology (`apply_morphological_operations`) -/

/-- `⌊√n⌋`, computed by a bounded linear search so that it reduces inside the
kernel during `decide` (core `Nat.sqrt` is defined by well-founded recursion
and does not evaluate definitionally); only used on the small numbers
arising in kernel generation. -/
def isqrt (n : Nat) : Nat :=
  (List.range (n + 1)).foldl (fun acc m => if m * m ≤ n then m else acc) 0

/-- Half-width of row `dy` of OpenCV's discrete ellipse:
`cvRound(c * sqrt(r*r - dy*dy) / r)` (see `getStructuringElement`,
`MORPH_ELLIPSE` case, where `saturate_cast<int>` rounds to nearest).
With `k = r² − dy²` and `N = c²·k`, rounding `√N / r` to the nearest integer
equals `⌊(⌊√(4N)⌋ + r) / (2r)⌋`, because `⌊x + 1/2⌋ = ⌊(⌊2x⌋ + 1)/2⌋` and
`⌊2√N⌋ = ⌊√(4N)⌋`; for the kernel sizes used here `√N / r` is never an
exact half-integer, so round-half-to-even never differs. -/
def ellipseDx (r c k : Nat) : Nat :=
  if r = 0 then 0 else (isqrt (4 * c * c * k) + r) / (2 * r)

/-- Embeds `cv2.getStructuringElement(cv2.MORPH_ELLIPSE, (kw, kh))` (OpenCV
`ksize` is (width, height)) as the list of nonzero-element offsets relative
to the default anchor, the kernel centre `(kh/2, kw/2)`.  Following OpenCV's
generation loop: row `i` holds columns `j ∈ [max(c−dx,0), min(c+dx+1, kw))`
with `dx` from `ellipseDx`; the offset of element `(i, j)` is
`(i − kh/2, j − kw/2)`. -/
def ellipseKernel (kw kh : Nat) : List (Int × Int) :=
  (List.range kh).flatMap (fun i =>
    let r := kh / 2
    let c := kw / 2
    let dyAbs := if i ≤ r then r - i else i - r
    let dx := ellipseDx r c (r * r - dyAbs * dyAbs)
    let j1 := c - dx
    let j2 := min (c + dx + 1) kw
    (List.range (j2 - j1)).map
      (fun t => ((i : Int) - (r : Int), ((j1 + t : Nat) : Int) - (c : Int))))

/-- Opening kernel of `apply_morphological_operations`:
`cv2.getStructuringElement(cv2.MORPH_ELLIPSE, (7, 11))`, 7 columns wide and
11 rows tall, as the explicit offset list (spelled out so that proofs by
evaluation do not recompute the generator at every kernel access);
`kernel_open1_eq_ellipse` checks it against the generator `ellipseKernel`. -/
def kernel_open1 : List (Int × Int) :=
  [(-5, 0),
   (-4, -2), (-4, -1), (-4, 0), (-4, 1), (-4, 2),
   (-3, -2), (-3, -1), (-3, 0), (-3, 1), (-3, 2),
   (-2, -3), (-2, -2), (-2, -1), (-2, 0), (-2, 1), (-2, 2), (-2, 3),
   (-1, -3), (-1, -2), (-1, -1), (-1, 0), (-1, 1), (-1, 2), (-1, 3),
   (0, -3), (0, -2), (0, -1), (0, 0), (0, 1), (0, 2), (0, 3),
   (1, -3), (1, -2), (1, -1), (1, 0), (1, 1), (1, 2), (1, 3),
   (2, -3), (2, -2), (2, -1), (2, 0), (2, 1), (2, 2), (2, 3),
   (3, -2), (3, -1), (3, 0), (3, 1), (3, 2),
   (4, -2), (4, -1), (4, 0), (4, 1), (4, 2),
   (5, 0)]

/-- Closing kernel of `apply_morphological_operations`:
`cv2.getStructuringElement(cv2.MORPH_ELLIPSE, (4, 5))`, 4 columns wide and
5 rows tall (note the x-asymmetry: OpenCV's even-width ellipse spans columns
−2..1); `kernel_close_eq_ellipse` checks it against `ellipseKernel`. -/
def kernel_close : List (Int × Int) :=
  [(-2, 0),
   (-1, -2), (-1, -1), (-1, 0), (-1, 1),
   (0, -2), (0, -1), (0, 0), (0, 1),
   (1, -2), (1, -1), (1, 0), (1, 1),
   (2, 0)]

set_option maxRecDepth 40000 in
theorem kernel_open1_eq_ellipse : kernel_open1 = ellipseKernel 7 11 := by
  decide

set_option maxRecDepth 40000 in
theorem kernel_close_eq_ellipse : kernel_close = ellipseKernel 4 5 := by
  decide

/-- The pixel values sampled by a kernel placed at `(y, x)`: one sample per
kernel offset whose target lies inside the image.  Out-of-bounds offsets
produce no sample, which models OpenCV's default morphology border
(`BORDER_CONSTANT` with `morphologyDefaultBorderValue()`): `+DBL_MAX` for
erosion — never the minimum — and `-DBL_MAX` for dilation — never the
maximum. -/
def samplesAt (g : Img) (ker : List (Int × Int)) (y x : Nat) : List Nat :=
  ker.filterMap (fun d =>
    let yy := (y : Int) + d.1
    let xx := (x : Int) + d.2
    if 0 ≤ yy ∧ yy < (g.h : Int) ∧ 0 ≤ xx ∧ xx < (g.w : Int) then
      some (g.pix yy.toNat xx.toNat)
    else none)

/-- `cv2.erode` with default anchor and border: each output pixel is the
minimum of the in-bounds kernel samples (documented formula
`dst(x,y) = min over nonzero element offsets of src`, out-of-bounds treated
as `+DBL_MAX`).  Both kernels contain the anchor offset `(0,0)`, so for
in-grid pixels the centre value seeding the fold is itself one of the
samples and the fold computes exactly the minimum of the sample list. -/
def erode (g : Img) (ker : List (Int × Int)) : Img :=
  mkImg g.h g.w (fun y x => (samplesAt g ker y x).foldr min (g.pix y x))

/-- `cv2.dilate` with default anchor and border: each output pixel is the
maximum of the in-bounds kernel samples (out-of-bounds treated as
`-DBL_MAX`; the fold over natural-number samples is seeded with 0, which
never exceeds any sample). -/
def dilate (g : Img) (ker : List (Int × Int)) : Img :=
  mkImg g.h g.w (fun y x => (samplesAt g ker y x).foldr max 0)

/-- `cv2.morphologyEx(·, cv2.MORPH_OPEN, ker)`: erosion followed by dilation
with the same kernel. -/
def morphologyEx_open (g : Img) (ker : List (Int × Int)) : Img :=
  dilate (erode g ker) ker

/-- `cv2.morphologyEx(·, cv2.MORPH_CLOSE, ker)`: dilation followed by erosion
with the same kernel. -/
def morphologyEx_close (g : Img) (ker : List (Int × Int)) : Img :=
  erode (dilate g ker) ker

/-- Embeds `apply_morphological_operations` (src/main.ipynb):
`cv2.morphologyEx(·, cv2.MORPH_OPEN, kernel_open1)` (erosion then dilation)
followed by `cv2.morphologyEx(·, cv2.MORPH_CLOSE, kernel_close)` (dilation
then erosion); the matplotlib display is discarded. -/
def apply_morphological_operations (binary_image : Img) : Img :=
  morphologyEx_close (morphologyEx_open binary_image kernel_open1)
    kernel_close

/-! ### Generic facts about `mkImg`, folds and kernel sampling -/

theorem mkImg_eq_of_pointwise {h w : Nat} {f f' : Nat → Nat → Nat}
    (hp : ∀ y, y < h → ∀ x, x < w → f y x = f' y x) :
    mkImg h w f = mkImg h w f' := by
  rcases Nat.eq_zero_or_pos w with hw | hw
  · subst hw
    unfold mkImg
    simp
  · unfold mkImg
    congr 1
    refine List.map_congr_left (fun i hi => ?_)
    rw [List.mem_range] at hi
    have hdiv : i / w < h := (Nat.div_lt_iff_lt_mul hw).mpr hi
    exact hp _ hdiv _ (Nat.mod_lt i hw)

theorem mkImg_data_length (h w : Nat) (f : Nat → Nat → Nat) :
    (mkImg h w f).data.length = h * w := by
  simp [mkImg]

/-- Two images of equal dimensions whose data lists have the expected
row-major length are equal as soon as they agree pixelwise on the grid. -/
theorem img_eq_of_pix_eq {A B : Img} (hh : A.h = B.h) (hw : A.w = B.w)
    (hA : A.data.length = A.h * A.w) (hB : B.data.length = B.h * B.w)
    (hp : ∀ y, y < A.h → ∀ x, x < A.w → A.pix y x = B.pix y x) : A = B := by
  rcases A with ⟨ha, wa, da⟩
  rcases B with ⟨hb, wb, db⟩
  simp only at hh hw hA hB
  subst hh
  subst hw
  congr 1
  refine List.ext_getElem (by rw [hA, hB]) (fun i h1 h2 => ?_)
  rw [hA] at h1
  have hwa : 0 < wa := by
    rcases Nat.eq_zero_or_pos wa with h | h
    · subst h; omega
    · exact h
  have hy : i / wa < ha := (Nat.div_lt_iff_lt_mul hwa).mpr h1
  have hx : i % wa < wa := Nat.mod_lt i hwa
  have hpix := hp (i / wa) hy (i % wa) hx
  unfold Img.pix at hpix
  simp only at hpix
  have hidx : i / wa * wa + i % wa = i := by
    rw [Nat.mul_comm]
    exact Nat.div_add_mod i wa
  rw [hidx] at hpix
  rw [List.getD_eq_getElem?_getD, List.getD_eq_getElem?_getD] at hpix
  rw [List.getElem?_eq_getElem (by rw [hA]; exact h1),
    List.getElem?_eq_getElem h2] at hpix
  simpa using hpix

theorem foldr_min_le_seed (l : List Nat) (s : Nat) : l.foldr min s ≤ s := by
  induction l with
  | nil => exact Nat.le_refl s
  | cons a t ih => exact Nat.le_trans (Nat.min_le_right a _) ih

theorem foldr_min_le_mem {a : Nat} {l : List Nat} (s : Nat) (ha : a ∈ l) :
    l.foldr min s ≤ a := by
  induction l with
  | nil => cases ha
  | cons b t ih =>
    rcases List.mem_cons.mp ha with h | h
    · subst h; exact Nat.min_le_left a _
    · exact Nat.le_trans (Nat.min_le_right b _) (ih h)

theorem le_foldr_min {c s : Nat} {l : List Nat} (hs : c ≤ s)
    (hl : ∀ a ∈ l, c ≤ a) : c ≤ l.foldr min s := by
  induction l with
  | nil => exact hs
  | cons b t ih =>
    exact Nat.le_min.mpr ⟨hl b (List.mem_cons_self b t),
      ih (fun a ha => hl a (List.mem_cons_of_mem b ha))⟩

theorem mem_le_foldr_max {a : Nat} {l : List Nat} (ha : a ∈ l) :
    a ≤ l.foldr max 0 := by
  induction l with
  | nil => cases ha
  | cons b t ih =>
    rcases List.mem_cons.mp ha with h | h
    · subst h; exact Nat.le_max_left a _
    · exact Nat.le_trans (ih h) (Nat.le_max_right b _)

theorem foldr_max_le {c : Nat} {l : List Nat} (hl : ∀ a ∈ l, a ≤ c) :
    l.foldr max 0 ≤ c := by
  induction l with
  | nil => exact Nat.zero_le c
  | cons b t ih =>
    exact Nat.max_le.mpr ⟨hl b (List.mem_cons_self b t),
      ih (fun a ha => hl a (List.mem_cons_of_mem b ha))⟩

/-- A sample taken at in-grid coordinates `(yy, xx)` whose offset from
`(y, x)` is in the kernel belongs to the sample list at `(y, x)`. -/
theorem mem_samplesAt {g : Img} {ker : List (Int × Int)} {y x yy xx : Nat}
    (hyy : yy < g.h) (hxx : xx < g.w)
    (hd : ((yy : Int) - (y : Int), (xx : Int) - (x : Int)) ∈ ker) :
    g.pix yy xx ∈ samplesAt g ker y x := by
  refine List.mem_filterMap.mpr
    ⟨((yy : Int) - (y : Int), (xx : Int) - (x : Int)), hd, ?_⟩
  have hy' : (y : Int) + ((yy : Int) - (y : Int)) = (yy : Int) := by ring
  have hx' : (x : Int) + ((xx : Int) - (x : Int)) = (xx : Int) := by ring
  dsimp only
  rw [hy', hx']
  rw [if_pos ⟨Int.natCast_nonneg yy, by exact_mod_cast hyy,
    Int.natCast_nonneg xx, by exact_mod_cast hxx⟩]
  rw [Int.toNat_natCast, Int.toNat_natCast]

/-- Every sample at `(y, x)` is the pixel value at some in-grid position
whose offset from `(y, x)` lies in the kernel. -/
theorem of_mem_samplesAt {g : Img} {ker : List (Int × Int)} {y x : Nat}
    {a : Nat} (ha : a ∈ samplesAt g ker y x) :
    ∃ yy xx, yy < g.h ∧ xx < g.w ∧
      ((yy : Int) - (y : Int), (xx : Int) - (x : Int)) ∈ ker ∧
      a = g.pix yy xx := by
  rcases List.mem_filterMap.mp ha with ⟨d, hd, hsome⟩
  dsimp only at hsome
  by_cases hC : 0 ≤ (y : Int) + d.1 ∧ (y : Int) + d.1 < (g.h : Int) ∧
      0 ≤ (x : Int) + d.2 ∧ (x : Int) + d.2 < (g.w : Int)
  · rw [if_pos hC] at hsome
    refine ⟨((y : Int) + d.1).toNat, ((x : Int) + d.2).toNat, ?_, ?_, ?_, ?_⟩
    · omega
    · omega
    · have h1 : ((((y : Int) + d.1).toNat : Int) - (y : Int)) = d.1 := by omega
      have h2 : ((((x : Int) + d.2).toNat : Int) - (x : Int)) = d.2 := by omega
      rw [h1, h2]
      exact hd
    · exact (Option.some.inj hsome).symm
  · rw [if_neg hC] at hsome
    cases hsome

theorem erode_h (g : Img) (ker : List (Int × Int)) : (erode g ker).h = g.h := rfl

theorem erode_w (g : Img) (ker : List (Int × Int)) : (erode g ker).w = g.w := rfl

theorem dilate_h (g : Img) (ker : List (Int × Int)) : (dilate g ker).h = g.h := rfl

theorem dilate_w (g : Img) (ker : List (Int × Int)) : (dilate g ker).w = g.w := rfl

theorem erode_pix {g : Img} {y x : Nat} (ker : List (Int × Int))
    (hy : y < g.h) (hx : x < g.w) :
    (erode g ker).pix y x = (samplesAt g ker y x).foldr min (g.pix y x) :=
  mkImg_pix _ hy hx

theorem dilate_pix {g : Img} {y x : Nat} (ker : List (Int × Int))
    (hy : y < g.h) (hx : x < g.w) :
    (dilate g ker).pix y x = (samplesAt g ker y x).foldr max 0 :=
  mkImg_pix _ hy hx

/-- Point symmetry of a kernel offset list. -/
def KerSym (ker : List (Int × Int)) : Prop :=
  ∀ d ∈ ker, (-d.1, -d.2) ∈ ker

/-- Concrete input for the C5 witness: a 1 × 2 image with one pixel above and
one below the threshold. -/
def imgC5 : Img := ⟨1, 2, [100, 30]⟩

/-- Witness for C5 at the concrete image `imgC5`. -/
theorem C5_binarizer_strict_threshold_witness :
    (0 < imgC5.h ∧ 0 < imgC5.w) ∧
    ((load_and_binarize_image imgC5).h = imgC5.h ∧
     (load_and_binarize_image imgC5).w = imgC5.w ∧
     (∀ y, y < imgC5.h → ∀ x, x < imgC5.w →
       ((load_and_binarize_image imgC5).pix y x = 255 ↔ 66 < imgC5.pix y x) ∧
       ((load_and_binarize_image imgC5).pix y x = 0 ↔ ¬ 66 < imgC5.pix y x))) :=
  ⟨by decide, C5_binarizer_strict_threshold imgC5 (by decide)⟩

/-- Erosion is pointwise monotone (for images of equal dimensions). -/
theorem erode_mono {g1 g2 : Img} (ker : List (Int × Int))
    (hh : g1.h = g2.h) (hw : g1.w = g2.w)
    (hle : ∀ y, y < g1.h → ∀ x, x < g1.w → g1.pix y x ≤ g2.pix y x)
    {y x : Nat} (hy : y < g1.h) (hx : x < g1.w) :
    (erode g1 ker).pix y x ≤ (erode g2 ker).pix y x := by
  rw [erode_pix ker hy hx, erode_pix ker (hh ▸ hy) (hw ▸ hx)]
  refine le_foldr_min ?_ ?_
  · exact Nat.le_trans (foldr_min_le_seed _ _) (hle y hy x hx)
  · intro a ha
    rcases of_mem_samplesAt ha with ⟨yy, xx, hyy, hxx, hd, rfl⟩
    refine Nat.le_trans
      (foldr_min_le_mem _ (mem_samplesAt (hh ▸ hyy) (hw ▸ hxx) hd))
      (hle yy (hh ▸ hyy) xx (hw ▸ hxx))

/-- Dilation is pointwise monotone (for images of equal dimensions). -/
theorem dilate_mono {g1 g2 : Img} (ker : List (Int × Int))
    (hh : g1.h = g2.h) (hw : g1.w = g2.w)
    (hle : ∀ y, y < g1.h → ∀ x, x < g1.w → g1.pix y x ≤ g2.pix y x)
    {y x : Nat} (hy : y < g1.h) (hx : x < g1.w) :
    (dilate g1 ker).pix y x ≤ (dilate g2 ker).pix y x := by
  rw [dilate_pix ker hy hx, dilate_pix ker (hh ▸ hy) (hw ▸ hx)]
  refine foldr_max_le ?_
  intro a ha
  rcases of_mem_samplesAt ha with ⟨yy, xx, hyy, hxx, hd, rfl⟩
  exact Nat.le_trans (hle yy hyy xx hxx)
    (mem_le_foldr_max (mem_samplesAt (hh ▸ hyy) (hw ▸ hxx) hd))

/-- With a point-symmetric kernel containing the anchor, dilating after
eroding never exceeds the original image (the opening is anti-extensive). -/
theorem dilate_erode_le {g : Img} {ker : List (Int × Int)} (hsym : KerSym ker)
    {y x : Nat} (hy : y < g.h) (hx : x < g.w) :
    (dilate (erode g ker) ker).pix y x ≤ g.pix y x := by
  rw [dilate_pix (g := erode g ker) ker hy hx]
  refine foldr_max_le ?_
  intro a ha
  rcases of_mem_samplesAt ha with ⟨yy, xx, hyy, hxx, hd, rfl⟩
  rw [erode_pix (g := g) ker hyy hxx]
  have hd' : ((y : Int) - (yy : Int), (x : Int) - (xx : Int)) ∈ ker := by
    have := hsym _ hd
    have he : (-(((yy : Int) - (y : Int))), -(((xx : Int) - (x : Int)))) =
        ((y : Int) - (yy : Int), (x : Int) - (xx : Int)) := by
      rw [Prod.mk.injEq]
      constructor <;> ring
    rwa [he] at this
  exact foldr_min_le_mem _ (mem_samplesAt hy hx hd')

/-- With a point-symmetric kernel containing the anchor, eroding after
dilating never falls below the original image (the closing-style composition
is extensive). -/
theorem erode_dilate_ge {g : Img} {ker : List (Int × Int)}
    (hker0 : ((0 : Int), (0 : Int)) ∈ ker) (hsym : KerSym ker)
    {y x : Nat} (hy : y < g.h) (hx : x < g.w) :
    g.pix y x ≤ (erode (dilate g ker) ker).pix y x := by
  rw [erode_pix (g := dilate g ker) ker hy hx]
  have hcenter : ∀ yy xx, yy < g.h → xx < g.w →
      ((yy : Int) - (y : Int), (xx : Int) - (x : Int)) ∈ ker →
      g.pix y x ≤ (dilate g ker).pix yy xx := by
    intro yy xx hyy hxx hd
    rw [dilate_pix ker hyy hxx]
    have hd' : ((y : Int) - (yy : Int), (x : Int) - (xx : Int)) ∈ ker := by
      have := hsym _ hd
      have he : (-(((yy : Int) - (y : Int))), -(((xx : Int) - (x : Int)))) =
          ((y : Int) - (yy : Int), (x : Int) - (xx : Int)) := by
        rw [Prod.mk.injEq]
        constructor <;> ring
      rwa [he] at this
    exact mem_le_foldr_max (mem_samplesAt hy hx hd')
  refine le_foldr_min ?_ ?_
  · refine hcenter y x hy hx ?_
    have he : ((y : Int) - (y : Int), (x : Int) - (x : Int)) =
        ((0 : Int), (0 : Int)) := by
      rw [Prod.mk.injEq]
      constructor <;> ring
    rw [he]
    exact hker0
  · intro a ha
    rcases of_mem_samplesAt ha with ⟨yy, xx, hyy, hxx, hd, rfl⟩
    exact hcenter yy xx hyy hxx hd

/-- Opening with a point-symmetric kernel containing the anchor is
idempotent.  This is the adjunction argument of mathematical morphology: on
the grid, OpenCV's default-border erosion and dilation by the reflected
kernel form an adjunction, and for a symmetric kernel the reflected kernel
is the kernel itself. -/
theorem morphologyEx_open_idem {ker : List (Int × Int)}
    (hker0 : ((0 : Int), (0 : Int)) ∈ ker) (hsym : KerSym ker) (g : Img) :
    morphologyEx_open (morphologyEx_open g ker) ker =
      morphologyEx_open g ker := by
  refine img_eq_of_pix_eq
    (A := morphologyEx_open (morphologyEx_open g ker) ker)
    (B := morphologyEx_open g ker) rfl rfl (mkImg_data_length _ _ _)
    (mkImg_data_length _ _ _) (fun y hy x hx => ?_)
  have hle : (morphologyEx_open (morphologyEx_open g ker) ker).pix y x ≤
      (morphologyEx_open g ker).pix y x :=
    dilate_erode_le (g := morphologyEx_open g ker) hsym hy hx
  have hge : (morphologyEx_open g ker).pix y x ≤
      (morphologyEx_open (morphologyEx_open g ker) ker).pix y x := by
    show (dilate (erode g ker) ker).pix y x ≤
      (dilate (erode (dilate (erode g ker) ker) ker) ker).pix y x
    refine @dilate_mono (erode g ker)
      (erode (dilate (erode g ker) ker) ker) ker rfl rfl ?_ y x hy hx
    intro y' hy' x' hx'
    exact erode_dilate_ge (g := erode g ker) hker0 hsym hy' hx'
  exact Nat.le_antisymm hle hge

/-- Concrete 5 × 5 mask for the C9 counterexample: all-foreground except a
single background pixel at row 1, column 1. -/
def imgC9 : Img := mkImg 5 5 (fun y x => if y = 1 ∧ x = 1 then 0 else 255)

set_option maxRecDepth 40000 in
/-- **C9, counterexample**: the full engine (opening with the 7×11 elliptical
kernel followed by closing with the 4×5 elliptical kernel) is not
idempotent: on `imgC9` a second application changes the output (the first
application leaves a foreground region, the second erases everything).  The
proof evaluates the four erosion/dilation passes of each engine application
stage by stage. -/
theorem C9_engine_not_idempotent :
    apply_morphological_operations (apply_morphological_operations imgC9) ≠
      apply_morphological_operations imgC9 := by
  have h1 : erode imgC9 kernel_open1 =
      ⟨5, 5, [0, 0, 0, 0, 0, 0, 0, 0, 0, 0, 0, 0, 0, 0, 0, 0, 0, 0, 0, 0,
              0, 0, 0, 0, 255]⟩ := by decide
  have h2 : dilate (⟨5, 5, [0, 0, 0, 0, 0, 0, 0, 0, 0, 0, 0, 0, 0, 0, 0, 0,
      0, 0, 0, 0, 0, 0, 0, 0, 255]⟩ : Img) kernel_open1 =
      ⟨5, 5, [0, 0, 255, 255, 255, 0, 0, 255, 255, 255, 0, 255, 255, 255,
              255, 0, 255, 255, 255, 255, 0, 255, 255, 255, 255]⟩ := by
    decide
  have h3 : dilate (⟨5, 5, [0, 0, 255, 255, 255, 0, 0, 255, 255, 255, 0,
      255, 255, 255, 255, 0, 255, 255, 255, 255, 0, 255, 255, 255,
      255]⟩ : Img) kernel_close =
      ⟨5, 5, [0, 255, 255, 255, 255, 255, 255, 255, 255, 255, 255, 255, 255,
              255, 255, 255, 255, 255, 255, 255, 255, 255, 255, 255,
              255]⟩ := by decide
  have h4 : erode (⟨5, 5, [0, 255, 255, 255, 255, 255, 255, 255, 255, 255,
      255, 255, 255, 255, 255, 255, 255, 255, 255, 255, 255, 255, 255, 255,
      255]⟩ : Img) kernel_close =
      ⟨5, 5, [0, 0, 0, 255, 255, 0, 0, 0, 255, 255, 0, 255, 255, 255, 255,
              255, 255, 255, 255, 255, 255, 255, 255, 255, 255]⟩ := by
    decide
  have hE1 : apply_morphological_operations imgC9 =
      ⟨5, 5, [0, 0, 0, 255, 255, 0, 0, 0, 255, 255, 0, 255, 255, 255, 255,
              255, 255, 255, 255, 255, 255, 255, 255, 255, 255]⟩ := by
    unfold apply_morphological_operations morphologyEx_open morphologyEx_close
    rw [h1, h2, h3, h4]
  have h5 : erode (⟨5, 5, [0, 0, 0, 255, 255, 0, 0, 0, 255, 255, 0, 255,
      255, 255, 255, 255, 255, 255, 255, 255, 255, 255, 255, 255,
      255]⟩ : Img) kernel_open1 = ⟨5, 5, List.replicate 25 0⟩ := by decide
  have h6 : dilate (⟨5, 5, List.replicate 25 0⟩ : Img) kernel_open1 =
      ⟨5, 5, List.replicate 25 0⟩ := by decide
  have h7 : dilate (⟨5, 5, List.replicate 25 0⟩ : Img) kernel_close =
      ⟨5, 5, List.replicate 25 0⟩ := by decide
  have h8 : erode (⟨5, 5, List.replicate 25 0⟩ : Img) kernel_close =
      ⟨5, 5, List.replicate 25 0⟩ := by decide
  have hE2 : apply_morphological_operations (⟨5, 5, [0, 0, 0, 255, 255, 0,
      0, 0, 255, 255, 0, 255, 255, 255, 255, 255, 255, 255, 255, 255, 255,
      255, 255, 255, 255]⟩ : Img) = ⟨5, 5, List.replicate 25 0⟩ := by
    unfold apply_morphological_operations morphologyEx_open morphologyEx_close
    rw [h5, h6, h7, h8]
  rw [hE1, hE2]
  decide

set_option maxRecDepth 100000 in
set_option maxHeartbeats 1000000 in
/-- **C9, amended**: the composed engine is not idempotent (see
`C9_engine_not_idempotent`), but its opening stage alone is: opening with
the 7×11 elliptical kernel — which is point-symmetric — is idempotent on
every mask. -/
theorem C9_opening_stage_idempotent (M : Img) :
    morphologyEx_open (morphologyEx_open M kernel_open1) kernel_open1 =
      morphologyEx_open M kernel_open1 :=
  morphologyEx_open_idem (by decide) (by unfold KerSym; decide) M

/-! ### Border policy (C6) -/

/-- The kernel samples at `(y, x)` with every out-of-bounds offset replaced by
the constant `pad` (one entry per kernel element, in kernel order). -/
def paddedSamplesAt (g : Img) (ker : List (Int × Int)) (y x pad : Nat) :
    List Nat :=
  ker.map (fun d =>
    let yy := (y : Int) + d.1
    let xx := (x : Int) + d.2
    if 0 ≤ yy ∧ yy < (g.h : Int) ∧ 0 ≤ xx ∧ xx < (g.w : Int) then
      g.pix yy.toNat xx.toNat
    else pad)

/-- Following the words of the spec for C6 (not the code): erosion in which
out-of-bounds samples are treated as background, value 0 — equivalently,
erosion computed over the mask padded with zeros. -/
def erode_zero_padded (g : Img) (ker : List (Int × Int)) : Img :=
  mkImg g.h g.w
    (fun y x => (paddedSamplesAt g ker y x 0).foldr min (g.pix y x))

/-- Dilation in which out-of-bounds samples are value 0 — equivalently,
dilation computed over the mask padded with zeros (this one agrees with the
code, since a 0 sample never attains the maximum). -/
def dilate_zero_padded (g : Img) (ker : List (Int × Int)) : Img :=
  mkImg g.h g.w (fun y x => (paddedSamplesAt g ker y x 0).foldr max 0)

/-- Following the words of the spec for C6: the engine with every erosion and
dilation computed over the zero-padded mask. -/
def apply_morphological_operations_zero_padded (binary_image : Img) : Img :=
  erode_zero_padded
    (dilate_zero_padded
      (dilate_zero_padded (erode_zero_padded binary_image kernel_open1)
        kernel_open1)
      kernel_close)
    kernel_close

/-- Erosion in which out-of-bounds samples are value 255 (foreground) —
equivalently, erosion computed over the mask padded with 255.  For 8-bit
masks this coincides with OpenCV's default `+DBL_MAX` erosion border. -/
def erode_fg_padded (g : Img) (ker : List (Int × Int)) : Img :=
  mkImg g.h g.w
    (fun y x => (paddedSamplesAt g ker y x 255).foldr min (g.pix y x))

/-- Concrete 3 × 3 all-foreground mask for the C6 counterexample. -/
def imgC6 : Img := ⟨3, 3, List.replicate 9 255⟩

set_option maxRecDepth 40000 in
/-- **C6, counterexample**: the engine's output does not equal the
computation over the zero-padded mask: on the all-255 3×3 mask the engine
returns the mask unchanged (out-of-bounds erosion samples are foreground,
so nothing is eroded), while the zero-padded computation erases everything
(the 11×7 opening footprint always overhangs a 3×3 image). -/
theorem C6_zero_padding_refuted :
    apply_morphological_operations imgC6 ≠
      apply_morphological_operations_zero_padded imgC6 := by
  have h1 : erode imgC6 kernel_open1 = imgC6 := by decide
  have h2 : dilate imgC6 kernel_open1 = imgC6 := by decide
  have h3 : dilate imgC6 kernel_close = imgC6 := by decide
  have h4 : erode imgC6 kernel_close = imgC6 := by decide
  have hE : apply_morphological_operations imgC6 = imgC6 := by
    unfold apply_morphological_operations morphologyEx_open morphologyEx_close
    rw [h1, h2, h3, h4]
  have hz1 : erode_zero_padded imgC6 kernel_open1 =
      ⟨3, 3, List.replicate 9 0⟩ := by decide
  have hz2 : dilate_zero_padded (⟨3, 3, List.replicate 9 0⟩ : Img)
      kernel_open1 = ⟨3, 3, List.replicate 9 0⟩ := by decide
  have hz3 : dilate_zero_padded (⟨3, 3, List.replicate 9 0⟩ : Img)
      kernel_close = ⟨3, 3, List.replicate 9 0⟩ := by decide
  have hz4 : erode_zero_padded (⟨3, 3, List.replicate 9 0⟩ : Img)
      kernel_close = ⟨3, 3, List.replicate 9 0⟩ := by decide
  have hZ : apply_morphological_operations_zero_padded imgC6 =
      ⟨3, 3, List.replicate 9 0⟩ := by
    unfold apply_morphological_operations_zero_padded
    rw [hz1, hz2, hz3, hz4]
  rw [hE, hZ]
  decide

theorem fold_min_padded (g : Img) (ker : List (Int × Int)) (y x : Nat)
    {s : Nat} (hs : s ≤ 255) :
    (samplesAt g ker y x).foldr min s =
      (paddedSamplesAt g ker y x 255).foldr min s := by
  simp only [samplesAt, paddedSamplesAt]
  induction ker with
  | nil => rfl
  | cons d t ih =>
    rw [List.filterMap_cons, List.map_cons]
    by_cases hC : 0 ≤ (y : Int) + d.1 ∧ (y : Int) + d.1 < (g.h : Int) ∧
        0 ≤ (x : Int) + d.2 ∧ (x : Int) + d.2 < (g.w : Int)
    · simp only [if_pos hC, List.foldr_cons]
      rw [ih]
    · simp only [if_neg hC, List.foldr_cons]
      rw [← ih]
      have hfold : (List.filterMap (fun d =>
          if 0 ≤ (y : Int) + d.1 ∧ (y : Int) + d.1 < (g.h : Int) ∧
              0 ≤ (x : Int) + d.2 ∧ (x : Int) + d.2 < (g.w : Int) then
            some (g.pix ((y : Int) + d.1).toNat ((x : Int) + d.2).toNat)
          else none) t).foldr min s ≤ 255 :=
        Nat.le_trans (foldr_min_le_seed _ _) hs
      exact (Nat.min_eq_right hfold).symm

theorem fold_max_padded (g : Img) (ker : List (Int × Int)) (y x : Nat) :
    (samplesAt g ker y x).foldr max 0 =
      (paddedSamplesAt g ker y x 0).foldr max 0 := by
  simp only [samplesAt, paddedSamplesAt]
  induction ker with
  | nil => rfl
  | cons d t ih =>
    rw [List.filterMap_cons, List.map_cons]
    by_cases hC : 0 ≤ (y : Int) + d.1 ∧ (y : Int) + d.1 < (g.h : Int) ∧
        0 ≤ (x : Int) + d.2 ∧ (x : Int) + d.2 < (g.w : Int)
    · simp only [if_pos hC, List.foldr_cons]
      rw [ih]
    · simp only [if_neg hC, List.foldr_cons]
      rw [← ih]
      exact (Nat.zero_max _).symm

/-- Erosion preserves the 8-bit bound (its output is a minimum seeded by a
bounded centre value). -/
theorem erode_le_255 {g : Img} (ker : List (Int × Int))
    (hle : ∀ y, y < g.h → ∀ x, x < g.w → g.pix y x ≤ 255) :
    ∀ y, y < (erode g ker).h → ∀ x, x < (erode g ker).w →
      (erode g ker).pix y x ≤ 255 := by
  intro y hy x hx
  rw [erode_pix (g := g) ker hy hx]
  exact Nat.le_trans (foldr_min_le_seed _ _) (hle y hy x hx)

/-- Dilation preserves the 8-bit bound (every sample is a bounded pixel). -/
theorem dilate_le_255 {g : Img} (ker : List (Int × Int))
    (hle : ∀ y, y < g.h → ∀ x, x < g.w → g.pix y x ≤ 255) :
    ∀ y, y < (dilate g ker).h → ∀ x, x < (dilate g ker).w →
      (dilate g ker).pix y x ≤ 255 := by
  intro y hy x hx
  rw [dilate_pix (g := g) ker hy hx]
  refine foldr_max_le (fun a ha => ?_)
  rcases of_mem_samplesAt ha with ⟨yy, xx, hyy, hxx, _, rfl⟩
  exact hle yy hyy xx hxx

/-- For 8-bit images, the code's erosion (out-of-bounds ignored, i.e.
`+DBL_MAX`) equals erosion over the mask padded with foreground 255. -/
theorem erode_eq_fg_padded (g : Img) (ker : List (Int × Int))
    (hle : ∀ y, y < g.h → ∀ x, x < g.w → g.pix y x ≤ 255) :
    erode g ker = erode_fg_padded g ker := by
  refine img_eq_of_pix_eq (A := erode g ker) (B := erode_fg_padded g ker)
    rfl rfl (mkImg_data_length _ _ _) (mkImg_data_length _ _ _)
    (fun y hy x hx => ?_)
  rw [erode_pix (g := g) ker hy hx]
  unfold erode_fg_padded
  rw [mkImg_pix (h := g.h) (w := g.w) _ hy hx]
  exact fold_min_padded g ker y x (hle y hy x hx)

/-- The code's dilation (out-of-bounds ignored, i.e. `-DBL_MAX`) equals
dilation over the mask padded with zeros, unconditionally. -/
theorem dilate_eq_zero_padded (g : Img) (ker : List (Int × Int)) :
    dilate g ker = dilate_zero_padded g ker := by
  refine img_eq_of_pix_eq (A := dilate g ker) (B := dilate_zero_padded g ker)
    rfl rfl (mkImg_data_length _ _ _) (mkImg_data_length _ _ _)
    (fun y hy x hx => ?_)
  rw [dilate_pix (g := g) ker hy hx]
  unfold dilate_zero_padded
  rw [mkImg_pix (h := g.h) (w := g.w) _ hy hx]
  exact fold_max_padded g ker y x

/-- **C6, amended**: in `apply_morphological_operations` an out-of-bounds
sample is ignored — treated as foreground (`+DBL_MAX`, here 255 for 8-bit
masks) by erosion and as background (`-DBL_MAX`, here 0) by dilation, per
OpenCV's default morphology border.  Equivalently, for any 8-bit mask:
erosion equals erosion over the mask padded with 255, dilation equals
dilation over the mask padded with 0, and the engine equals the
correspondingly padded four-pass composition. -/
theorem C6_border_policy_amended (mask : Img)
    (hle : ∀ y, y < mask.h → ∀ x, x < mask.w → mask.pix y x ≤ 255) :
    (∀ ker, erode mask ker = erode_fg_padded mask ker) ∧
    (∀ ker, dilate mask ker = dilate_zero_padded mask ker) ∧
    apply_morphological_operations mask =
      erode_fg_padded
        (dilate_zero_padded
          (dilate_zero_padded (erode_fg_padded mask kernel_open1)
            kernel_open1)
          kernel_close)
        kernel_close := by
  refine ⟨fun ker => erode_eq_fg_padded mask ker hle,
    fun ker => dilate_eq_zero_padded mask ker, ?_⟩
  have hb1 := erode_le_255 (g := mask) kernel_open1 hle
  have hb2 := dilate_le_255 kernel_open1 hb1
  have hb3 := dilate_le_255 kernel_close hb2
  show erode (dilate (dilate (erode mask kernel_open1) kernel_open1)
    kernel_close) kernel_close = _
  rw [erode_eq_fg_padded _ kernel_close hb3,
    dilate_eq_zero_padded _ kernel_close,
    dilate_eq_zero_padded _ kernel_open1,
    erode_eq_fg_padded mask kernel_open1 hle]

/-- Witness for the amended C6 at the concrete 8-bit mask `imgC6`,
instantiating the kernel-quantified parts at the opening kernel. -/
theorem C6_border_policy_amended_witness :
    (∀ y, y < imgC6.h → ∀ x, x < imgC6.w → imgC6.pix y x ≤ 255) ∧
    erode imgC6 kernel_open1 = erode_fg_padded imgC6 kernel_open1 ∧
    dilate imgC6 kernel_open1 = dilate_zero_padded imgC6 kernel_open1 ∧
    apply_morphological_operations imgC6 =
      erode_fg_padded
        (dilate_zero_padded
          (dilate_zero_padded (erode_fg_padded imgC6 kernel_open1)
            kernel_open1)
          kernel_close)
        kernel_close :=
  ⟨by decide,
   (C6_border_policy_amended imgC6 (by decide)).1 kernel_open1,
   (C6_border_policy_amended imgC6 (by decide)).2.1 kernel_open1,
   (C6_border_policy_amended imgC6 (by decide)).2.2⟩

/-! ## Sector partitioning (`define_adaptive_lung_sectors`) -/

/-- The foreground rows of a mask, ascending: the distinct values of
`np.where(lung_mask == 255)[0]` (row indices of pixels equal to 255; the
multiplicity of the numpy coordinate list is irrelevant, the code only takes
emptiness, `min` and `max`). -/
def fgRows (g : Img) : List Nat :=
  (List.range g.h).filter (fun y =>
    (List.range g.w).any (fun x => g.pix y x == 255))

/-- `y_coords.min()`: the smallest foreground row (seeded with `g.h`, unused
when there is no foreground). -/
def lung_y_min (g : Img) : Nat := (fgRows g).foldr min g.h

/-- `y_coords.max()`: the largest foreground row (seeded with 0, unused when
there is no foreground). -/
def lung_y_max (g : Img) : Nat := (fgRows g).foldr max 0

/-- `sector_height = lung_height // 3` with
`lung_height = y_max - y_min + 1` (integer division). -/
def sector_height (g : Img) : Nat :=
  (lung_y_max g - lung_y_min g + 1) / 3

/-- Sector `i` (0 = Upper, 1 = Middle, 2 = Lower) of the loop in
`define_adaptive_lung_sectors`: a zero image receiving the rows
`[start_y, end_y)` of the lung mask, where `start_y = y_min + i*sector_height`
and `end_y = y_min + (i+1)*sector_height` for `i < 2`, else `y_max + 1`
(`mask[start_y:end_y, :] = lung_mask[start_y:end_y, :]`). -/
def sector_mask (g : Img) (i : Nat) : Img :=
  let start_y := lung_y_min g + i * sector_height g
  let end_y :=
    if i < 2 then lung_y_min g + (i + 1) * sector_height g
    else lung_y_max g + 1
  mkImg g.h g.w
    (fun y x => if start_y ≤ y ∧ y < end_y then g.pix y x else 0)

/-- Embeds `define_adaptive_lung_sectors` (src/main.ipynb): if the mask has
no pixel equal to 255 (`y_coords.size == 0 or x_coords.size == 0`, which for
`np.where(mask == 255)` are both empty exactly when no such pixel exists),
return three `np.zeros_like` images; otherwise the three sectors of the
bounding-box rows.  The commented-out visualization block is not modelled. -/
def define_adaptive_lung_sectors (lung_mask : Img) : List Img :=
  if fgRows lung_mask = [] then
    [mkImg lung_mask.h lung_mask.w (fun _ _ => 0),
     mkImg lung_mask.h lung_mask.w (fun _ _ => 0),
     mkImg lung_mask.h lung_mask.w (fun _ _ => 0)]
  else
    [sector_mask lung_mask 0, sector_mask lung_mask 1, sector_mask lung_mask 2]

/-! ## Statistics (`compute_sector_statistics`) -/

/-- `original_image[sector == 255]`: the original-image values at the
positions where the sector mask is 255, in numpy's row-major boolean
indexing order. -/
def masked_pixels (original sector : Img) : List Nat :=
  (List.range original.h).flatMap (fun y =>
    (List.range original.w).filterMap (fun x =>
      if sector.pix y x = 255 then some (original.pix y x) else none))

/-- `cv2.countNonZero`: the number of nonzero entries of the image. -/
def countNonZero (g : Img) : Nat :=
  ((List.range (g.h * g.w)).filter
    (fun i => !(g.pix (i / g.w) (i % g.w) == 0))).length

/-- One row of the statistics table built by `compute_sector_statistics`.
numpy's float results are modelled as exact rationals; `std_dev_sq` is the
square of `masked_pixels.std()` (the population standard deviation
`sqrt(mean((v - mean)²))`), kept squared so the record stays rational —
it is 0 exactly when the standard deviation is 0. -/
structure SectorData where
  sector : String
  area : Nat
  mean_intensity : Rat
  std_dev_sq : Rat
  kct : Nat
  percentage : Rat
deriving DecidableEq, Repr

/-- Embeds `compute_sector_statistics` (src/main.ipynb).  For each sector:
`area = cv2.countNonZero(sector)`, `mean`/`std` of `masked_pixels` with the
0-if-empty guards, `Kct = masked_pixels.sum()`; `total_intensity` is the sum
of the per-sector Kct values accumulated by the loop, and
`percentage = (Kct / total) * 100` when the total is positive, else 0
(second loop of the source).  The seaborn palette and the plot are
visualization only.  `lung_label` is used by the source only in the plot
title. -/
def compute_sector_statistics (sectors : List Img) (original_image : Img)
    (lung_label : String) : List SectorData × Nat :=
  let total_intensity :=
    (sectors.map (fun s => (masked_pixels original_image s).sum)).sum
  let sector_data := sectors.enum.map (fun p =>
    let masked := masked_pixels original_image p.2
    { sector := ["Upper", "Middle", "Lower"].getD p.1 ""
      area := countNonZero p.2
      mean_intensity :=
        if 0 < masked.length then
          (masked.sum : Rat) / (masked.length : Rat)
        else 0
      std_dev_sq :=
        if 0 < masked.length then
          ((masked.map (fun v =>
            ((v : Rat) - (masked.sum : Rat) / (masked.length : Rat)) ^ 2)).sum)
            / (masked.length : Rat)
        else 0
      kct := masked.sum
      percentage :=
        if 0 < total_intensity then
          ((masked.sum : Rat) / (total_intensity : Rat)) * 100
        else 0 : SectorData })
  (sector_data, total_intensity)

theorem foldr_min_mem (l : List Nat) (s : Nat) : l.foldr min s ∈ s :: l := by
  induction l with
  | nil => exact List.mem_singleton.mpr rfl
  | cons a t ih =>
    rcases min_choice a (t.foldr min s) with h | h
    · rw [List.foldr_cons, h]
      exact List.mem_cons_of_mem s (List.mem_cons_self a t)
    · rw [List.foldr_cons, h]
      rcases List.mem_cons.mp ih with h' | h'
      · exact List.mem_cons.mpr (Or.inl h')
      · exact List.mem_cons_of_mem s (List.mem_cons_of_mem a h')

theorem foldr_max_mem (l : List Nat) (s : Nat) : l.foldr max s ∈ s :: l := by
  induction l with
  | nil => exact List.mem_singleton.mpr rfl
  | cons a t ih =>
    rcases max_choice a (t.foldr max s) with h | h
    · rw [List.foldr_cons, h]
      exact List.mem_cons_of_mem s (List.mem_cons_self a t)
    · rw [List.foldr_cons, h]
      rcases List.mem_cons.mp ih with h' | h'
      · exact List.mem_cons.mpr (Or.inl h')
      · exact List.mem_cons_of_mem s (List.mem_cons_of_mem a h')

theorem mem_fgRows {g : Img} {y : Nat} :
    y ∈ fgRows g ↔ y < g.h ∧ ∃ x, x < g.w ∧ g.pix y x = 255 := by
  unfold fgRows
  rw [List.mem_filter, List.mem_range, List.any_eq_true]
  constructor
  · rintro ⟨hy, x, hx, hp⟩
    refine ⟨hy, x, List.mem_range.mp hx, ?_⟩
    simpa using hp
  · rintro ⟨hy, x, hx, hp⟩
    exact ⟨hy, x, List.mem_range.mpr hx, by simp [hp]⟩

/-- Pixel formula of sector `i` on the grid. -/
theorem sector_pix (g : Img) (i : Nat) {y x : Nat}
    (hy : y < g.h) (hx : x < g.w) :
    (sector_mask g i).pix y x =
      if lung_y_min g + i * sector_height g ≤ y ∧
          y < (if i < 2 then lung_y_min g + (i + 1) * sector_height g
               else lung_y_max g + 1)
      then g.pix y x else 0 := by
  unfold sector_mask
  exact mkImg_pix _ hy hx

theorem ite_eq_255_iff {c : Prop} [Decidable c] {v : Nat} :
    (if c then v else 0) = 255 ↔ c ∧ v = 255 := by
  split_ifs with h <;> simp [h]

/-- **C2**: for every binary lung mask with at least one foreground pixel,
the three sector masks have the lung's dimensions; with
`sector_height = (y_max - y_min + 1) / 3` the Upper band is rows
`[y_min, y_min+sh)`, the Middle band `[y_min+sh, y_min+2sh)` and the Lower
band `[y_min+2sh, y_max]` inclusive; the three foreground pixel sets are
pairwise disjoint and their union is exactly the lung's foreground — indeed
the pixelwise maximum of the three sectors reproduces the lung mask. -/
theorem C2_sector_tiling (lung : Img)
    (hbin : ∀ y, y < lung.h → ∀ x, x < lung.w →
      lung.pix y x = 0 ∨ lung.pix y x = 255)
    (hfg : ∃ y, y < lung.h ∧ ∃ x, x < lung.w ∧ lung.pix y x = 255) :
    define_adaptive_lung_sectors lung =
      [sector_mask lung 0, sector_mask lung 1, sector_mask lung 2] ∧
    (∀ i, (sector_mask lung i).h = lung.h ∧ (sector_mask lung i).w = lung.w) ∧
    (∀ y, y < lung.h → ∀ x, x < lung.w →
      (((sector_mask lung 0).pix y x = 255 ↔
          lung.pix y x = 255 ∧ lung_y_min lung ≤ y ∧
            y < lung_y_min lung + sector_height lung) ∧
       ((sector_mask lung 1).pix y x = 255 ↔
          lung.pix y x = 255 ∧ lung_y_min lung + sector_height lung ≤ y ∧
            y < lung_y_min lung + 2 * sector_height lung) ∧
       ((sector_mask lung 2).pix y x = 255 ↔
          lung.pix y x = 255 ∧ lung_y_min lung + 2 * sector_height lung ≤ y ∧
            y ≤ lung_y_max lung)) ∧
      (¬((sector_mask lung 0).pix y x = 255 ∧
         (sector_mask lung 1).pix y x = 255) ∧
       ¬((sector_mask lung 0).pix y x = 255 ∧
         (sector_mask lung 2).pix y x = 255) ∧
       ¬((sector_mask lung 1).pix y x = 255 ∧
         (sector_mask lung 2).pix y x = 255)) ∧
      (((sector_mask lung 0).pix y x = 255 ∨
        (sector_mask lung 1).pix y x = 255 ∨
        (sector_mask lung 2).pix y x = 255) ↔ lung.pix y x = 255) ∧
      max ((sector_mask lung 0).pix y x)
          (max ((sector_mask lung 1).pix y x)
            ((sector_mask lung 2).pix y x)) = lung.pix y x) := by
  obtain ⟨y0, hy0, x0, hx0, hp0⟩ := hfg
  have hne : fgRows lung ≠ [] :=
    List.ne_nil_of_mem (mem_fgRows.mpr ⟨hy0, x0, hx0, hp0⟩)
  refine ⟨by unfold define_adaptive_lung_sectors; rw [if_neg hne],
    fun i => ⟨rfl, rfl⟩, fun y hy x hx => ?_⟩
  have hmem : lung.pix y x = 255 →
      lung_y_min lung ≤ y ∧ y ≤ lung_y_max lung := by
    intro hp
    have hmemf : y ∈ fgRows lung := mem_fgRows.mpr ⟨hy, x, hx, hp⟩
    exact ⟨foldr_min_le_mem _ hmemf, mem_le_foldr_max hmemf⟩
  have hshdef : sector_height lung =
      (lung_y_max lung - lung_y_min lung + 1) / 3 := rfl
  rw [sector_pix lung 0 hy hx, sector_pix lung 1 hy hx,
    sector_pix lung 2 hy hx]
  norm_num
  rw [ite_eq_255_iff, ite_eq_255_iff, ite_eq_255_iff]
  refine ⟨⟨by omega, by omega, by omega⟩, ⟨by omega, by omega, by omega⟩,
    by omega, ?_⟩
  rcases hbin y hy x hx with h0 | h255
  · rw [h0]
    split_ifs <;> omega
  · rw [h255]
    have hb := hmem h255
    split_ifs <;> omega

/-- Concrete 4 × 2 binary lung mask for the C2 witness (foreground rows
0, 2 and 3, so `y_min = 0`, `y_max = 3`, `sector_height = 1`). -/
def imgC2 : Img := ⟨4, 2, [0, 255, 0, 0, 255, 0, 0, 255]⟩

/-- Witness for C2 at the concrete mask `imgC2`. -/
theorem C2_sector_tiling_witness :
    (∀ y, y < imgC2.h → ∀ x, x < imgC2.w →
      imgC2.pix y x = 0 ∨ imgC2.pix y x = 255) ∧
    (∃ y, y < imgC2.h ∧ ∃ x, x < imgC2.w ∧ imgC2.pix y x = 255) ∧
    (define_adaptive_lung_sectors imgC2 =
      [sector_mask imgC2 0, sector_mask imgC2 1, sector_mask imgC2 2] ∧
    (∀ i, (sector_mask imgC2 i).h = imgC2.h ∧
      (sector_mask imgC2 i).w = imgC2.w) ∧
    (∀ y, y < imgC2.h → ∀ x, x < imgC2.w →
      (((sector_mask imgC2 0).pix y x = 255 ↔
          imgC2.pix y x = 255 ∧ lung_y_min imgC2 ≤ y ∧
            y < lung_y_min imgC2 + sector_height imgC2) ∧
       ((sector_mask imgC2 1).pix y x = 255 ↔
          imgC2.pix y x = 255 ∧ lung_y_min imgC2 + sector_height imgC2 ≤ y ∧
            y < lung_y_min imgC2 + 2 * sector_height imgC2) ∧
       ((sector_mask imgC2 2).pix y x = 255 ↔
          imgC2.pix y x = 255 ∧
            lung_y_min imgC2 + 2 * sector_height imgC2 ≤ y ∧
            y ≤ lung_y_max imgC2)) ∧
      (¬((sector_mask imgC2 0).pix y x = 255 ∧
         (sector_mask imgC2 1).pix y x = 255) ∧
       ¬((sector_mask imgC2 0).pix y x = 255 ∧
         (sector_mask imgC2 2).pix y x = 255) ∧
       ¬((sector_mask imgC2 1).pix y x = 255 ∧
         (sector_mask imgC2 2).pix y x = 255)) ∧
      (((sector_mask imgC2 0).pix y x = 255 ∨
        (sector_mask imgC2 1).pix y x = 255 ∨
        (sector_mask imgC2 2).pix y x = 255) ↔ imgC2.pix y x = 255) ∧
      max ((sector_mask imgC2 0).pix y x)
          (max ((sector_mask imgC2 1).pix y x)
            ((sector_mask imgC2 2).pix y x)) = imgC2.pix y x)) :=
  ⟨by decide, ⟨0, by decide, 1, by decide, by decide⟩,
   C2_sector_tiling imgC2 (by decide)
     ⟨0, by decide, 1, by decide, by decide⟩⟩

/-- Every row of the statistics table carries
`percentage = (Kct / total) * 100` when the total is positive, else 0. -/
theorem percentage_formula {sectors : List Img} {original_image : Img}
    {lung_label : String} {d : SectorData}
    (hd : d ∈ (compute_sector_statistics sectors original_image
      lung_label).1) :
    d.percentage =
      if 0 < (compute_sector_statistics sectors original_image lung_label).2
      then ((d.kct : Rat) /
        ((compute_sector_statistics sectors original_image
          lung_label).2 : Rat)) * 100
      else 0 := by
  simp only [compute_sector_statistics] at hd ⊢
  rcases List.mem_map.mp hd with ⟨p, hp, rfl⟩
  rfl

/-- The Kct column of the statistics table sums to the returned total. -/
theorem kct_sum_eq_total (sectors : List Img) (original_image : Img)
    (lung_label : String) :
    ((compute_sector_statistics sectors original_image lung_label).1.map
      SectorData.kct).sum =
      (compute_sector_statistics sectors original_image lung_label).2 := by
  simp only [compute_sector_statistics]
  rw [List.map_map]
  show (sectors.enum.map
      (fun p : Nat × Img => (masked_pixels original_image p.2).sum)).sum =
    (sectors.map (fun s => (masked_pixels original_image s).sum)).sum
  show (sectors.enum.map
      ((fun s => (masked_pixels original_image s).sum) ∘ Prod.snd)).sum = _
  rw [← List.map_map, List.enum_map_snd]

/-- **C7**: each sector is assigned `percentage = 100 * Kct / total`; with a
positive total the three percentages sum to exactly 100 (hence within 1e-6),
and with total 0 every percentage is exactly 0.  numpy floats are modelled
as exact rationals. -/
theorem C7_percentage_conservation (sectors : List Img)
    (original_image : Img) (lung_label : String)
    (h3 : sectors.length = 3) :
    (∀ d ∈ (compute_sector_statistics sectors original_image lung_label).1,
      d.percentage =
        if 0 < (compute_sector_statistics sectors original_image
          lung_label).2
        then 100 * (d.kct : Rat) /
          ((compute_sector_statistics sectors original_image
            lung_label).2 : Rat)
        else 0) ∧
    (0 < (compute_sector_statistics sectors original_image lung_label).2 →
      ((compute_sector_statistics sectors original_image lung_label).1.map
        SectorData.percentage).sum = 100 ∧
      |((compute_sector_statistics sectors original_image lung_label).1.map
        SectorData.percentage).sum - 100| ≤ 1 / 1000000) ∧
    ((compute_sector_statistics sectors original_image lung_label).2 = 0 →
      ∀ d ∈ (compute_sector_statistics sectors original_image
        lung_label).1, d.percentage = 0) := by
  refine ⟨fun d hd => ?_, fun ht => ?_, fun ht d hd => ?_⟩
  · rw [percentage_formula hd]
    split_ifs with h
    · rw [mul_comm, mul_div_assoc]
    · rfl
  · have htQ : (((compute_sector_statistics sectors original_image
        lung_label).2 : Nat) : Rat) ≠ 0 :=
      Nat.cast_ne_zero.mpr (Nat.pos_iff_ne_zero.mp ht)
    have hmap : ((compute_sector_statistics sectors original_image
        lung_label).1.map SectorData.percentage) =
        ((compute_sector_statistics sectors original_image
          lung_label).1.map (fun d =>
            ((d.kct : Rat) / ((compute_sector_statistics sectors
              original_image lung_label).2 : Rat)) * 100)) :=
      List.map_congr_left (fun d hd => by
        rw [percentage_formula hd, if_pos ht])
    have hsum : ((compute_sector_statistics sectors original_image
        lung_label).1.map (fun d =>
          ((d.kct : Rat) / ((compute_sector_statistics sectors
            original_image lung_label).2 : Rat)) * 100)).sum = 100 := by
      rw [List.sum_map_mul_right]
      simp only [div_eq_mul_inv]
      rw [List.sum_map_mul_right]
      have hcast : ((compute_sector_statistics sectors original_image
          lung_label).1.map (fun d => ((d.kct : Rat)))).sum =
          (((compute_sector_statistics sectors original_image
            lung_label).1.map SectorData.kct).sum : Rat) := by
        rw [Nat.cast_list_sum, List.map_map]
        rfl
      rw [hcast, kct_sum_eq_total, mul_inv_cancel₀ htQ, one_mul]
    rw [hmap, hsum]
    norm_num
  · rw [percentage_formula hd, if_neg (by omega)]

/-- Concrete sectors and image for the C7 witness: two 1×1 sectors selecting
the single pixel (value 10) and one empty sector. -/
def sectorsC7 : List Img := [⟨1, 1, [255]⟩, ⟨1, 1, [255]⟩, ⟨1, 1, [0]⟩]

/-- Concrete original image for the C7 witness. -/
def imgC7 : Img := ⟨1, 1, [10]⟩

/-- Witness for C7 at the concrete sectors `sectorsC7` (total Kct 20 > 0). -/
theorem C7_percentage_conservation_witness :
    sectorsC7.length = 3 ∧
    ((∀ d ∈ (compute_sector_statistics sectorsC7 imgC7 "Left Lung").1,
      d.percentage =
        if 0 < (compute_sector_statistics sectorsC7 imgC7 "Left Lung").2
        then 100 * (d.kct : Rat) /
          ((compute_sector_statistics sectorsC7 imgC7 "Left Lung").2 : Rat)
        else 0) ∧
    (0 < (compute_sector_statistics sectorsC7 imgC7 "Left Lung").2 →
      ((compute_sector_statistics sectorsC7 imgC7 "Left Lung").1.map
        SectorData.percentage).sum = 100 ∧
      |((compute_sector_statistics sectorsC7 imgC7 "Left Lung").1.map
        SectorData.percentage).sum - 100| ≤ 1 / 1000000) ∧
    ((compute_sector_statistics sectorsC7 imgC7 "Left Lung").2 = 0 →
      ∀ d ∈ (compute_sector_statistics sectorsC7 imgC7 "Left Lung").1,
        d.percentage = 0)) :=
  ⟨by decide,
   C7_percentage_conservation sectorsC7 imgC7 "Left Lung" (by decide)⟩

theorem getD_map_zero {α : Type} (l : List α) (n : Nat) :
    (l.map (fun _ => (0 : Nat))).getD n 0 = 0 := by
  rw [List.getD_eq_getElem?_getD, List.getElem?_map]
  cases l[n]? <;> rfl

/-- Every pixel read of an all-zero image is 0, in or out of the grid. -/
theorem zero_img_pix (h w y x : Nat) :
    (mkImg h w (fun _ _ => 0)).pix y x = 0 := by
  unfold mkImg Img.pix
  exact getD_map_zero _ _

theorem masked_pixels_zero_sector (original : Img) (h w : Nat) :
    masked_pixels original (mkImg h w (fun _ _ => 0)) = [] := by
  rw [List.eq_nil_iff_forall_not_mem]
  intro a ha
  unfold masked_pixels at ha
  rcases List.mem_flatMap.mp ha with ⟨y, _, hmem⟩
  rcases List.mem_filterMap.mp hmem with ⟨x, _, hsome⟩
  rw [zero_img_pix] at hsome
  simp at hsome

theorem countNonZero_zero (h w : Nat) :
    countNonZero (mkImg h w (fun _ _ => 0)) = 0 := by
  unfold countNonZero
  rw [List.length_eq_zero, List.filter_eq_nil_iff]
  intro i _
  rw [zero_img_pix]
  simp

theorem fgRows_eq_nil {g : Img}
    (hno : ∀ y, y < g.h → ∀ x, x < g.w → g.pix y x ≠ 255) :
    fgRows g = [] := by
  unfold fgRows
  rw [List.filter_eq_nil_iff]
  intro y hy
  rw [List.mem_range] at hy
  intro hany
  rcases List.any_eq_true.mp hany with ⟨x, hx, hp⟩
  exact hno y hy x (List.mem_range.mp hx) (by simpa using hp)

/-- **C8**: a lung mask with no foreground pixel is a valid degenerate case:
the partitioner returns three all-zero sector masks of the lung's
dimensions without failing, the statistics total is 0, and every sector row
reports area 0, mean 0, zero variance (hence standard deviation 0), Kct 0
and percentage 0. -/
theorem C8_degenerate_lung_mask (lung original_image : Img)
    (lung_label : String)
    (hno : ∀ y, y < lung.h → ∀ x, x < lung.w → lung.pix y x ≠ 255) :
    define_adaptive_lung_sectors lung =
      [mkImg lung.h lung.w (fun _ _ => 0),
       mkImg lung.h lung.w (fun _ _ => 0),
       mkImg lung.h lung.w (fun _ _ => 0)] ∧
    (compute_sector_statistics (define_adaptive_lung_sectors lung)
      original_image lung_label).2 = 0 ∧
    ∀ d ∈ (compute_sector_statistics (define_adaptive_lung_sectors lung)
      original_image lung_label).1,
      d.area = 0 ∧ d.mean_intensity = 0 ∧ d.std_dev_sq = 0 ∧ d.kct = 0 ∧
        d.percentage = 0 := by
  have hsec : define_adaptive_lung_sectors lung =
      [mkImg lung.h lung.w (fun _ _ => 0),
       mkImg lung.h lung.w (fun _ _ => 0),
       mkImg lung.h lung.w (fun _ _ => 0)] := by
    unfold define_adaptive_lung_sectors
    rw [if_pos (fgRows_eq_nil hno)]
  refine ⟨hsec, ?_, ?_⟩
  · rw [hsec]
    simp only [compute_sector_statistics]
    simp [masked_pixels_zero_sector]
  · rw [hsec]
    intro d hd
    simp only [compute_sector_statistics] at hd
    rcases List.mem_map.mp hd with ⟨p, hp, rfl⟩
    have hz : p.2 = mkImg lung.h lung.w (fun _ _ => 0) := by
      have he : ([mkImg lung.h lung.w (fun _ _ => (0 : Nat)),
          mkImg lung.h lung.w (fun _ _ => 0),
          mkImg lung.h lung.w (fun _ _ => 0)] : List Img).enum =
          [(0, mkImg lung.h lung.w (fun _ _ => 0)),
           (1, mkImg lung.h lung.w (fun _ _ => 0)),
           (2, mkImg lung.h lung.w (fun _ _ => 0))] := rfl
      rw [he] at hp
      simp only [List.mem_cons, List.not_mem_nil, or_false] at hp
      rcases hp with rfl | rfl | rfl <;> rfl
    refine ⟨?_, ?_, ?_, ?_, ?_⟩
    · show countNonZero p.2 = 0
      rw [hz, countNonZero_zero]
    · show (if 0 < (masked_pixels original_image p.2).length then _ else 0) = 0
      rw [hz, masked_pixels_zero_sector]
      rfl
    · show (if 0 < (masked_pixels original_image p.2).length then _ else 0) = 0
      rw [hz, masked_pixels_zero_sector]
      rfl
    · show (masked_pixels original_image p.2).sum = 0
      rw [hz, masked_pixels_zero_sector]
      rfl
    · show (if 0 < _ then _ else 0) = 0
      rw [hz]
      simp [masked_pixels_zero_sector]

/-- Concrete 2 × 2 mask with no 255 pixel (one stray value 7) for the C8
witness. -/
def imgC8 : Img := ⟨2, 2, [0, 7, 0, 0]⟩

/-- Concrete original image for the C8 witness. -/
def imgC8orig : Img := ⟨2, 2, [5, 6, 7, 8]⟩

/-- Witness for C8 at the concrete degenerate mask `imgC8`. -/
theorem C8_degenerate_lung_mask_witness :
    (∀ y, y < imgC8.h → ∀ x, x < imgC8.w → imgC8.pix y x ≠ 255) ∧
    (define_adaptive_lung_sectors imgC8 =
      [mkImg imgC8.h imgC8.w (fun _ _ => 0),
       mkImg imgC8.h imgC8.w (fun _ _ => 0),
       mkImg imgC8.h imgC8.w (fun _ _ => 0)] ∧
    (compute_sector_statistics (define_adaptive_lung_sectors imgC8)
      imgC8orig "Right Lung").2 = 0 ∧
    ∀ d ∈ (compute_sector_statistics (define_adaptive_lung_sectors imgC8)
      imgC8orig "Right Lung").1,
      d.area = 0 ∧ d.mean_intensity = 0 ∧ d.std_dev_sq = 0 ∧ d.kct = 0 ∧
        d.percentage = 0) :=
  ⟨by decide, C8_degenerate_lung_mask imgC8 imgC8orig "Right Lung"
    (by decide)⟩

/-! ## Connected components (`extract_connected_lung_components`)

`cv2.connectedComponentsWithStats(processed_image, connectivity=8)` is an
external library call; the extractor is verified against any label map
satisfying its documented contract (`IsCCLabeling`): label 0 is exactly the
background (zero pixels), every label below `num_labels` is used, and two
foreground pixels carry the same label iff they are connected by a chain of
8-adjacent foreground pixels.  `stats[:, cv2.CC_STAT_AREA]` is the pixel
count per label, background row included. -/

/-- 8-adjacency of two grid positions: distinct, and both coordinates differ
by at most 1 (Chebyshev distance exactly 1). -/
def adj8 (p q : Nat × Nat) : Prop :=
  p ≠ q ∧ p.1 ≤ q.1 + 1 ∧ q.1 ≤ p.1 + 1 ∧ p.2 ≤ q.2 + 1 ∧ q.2 ≤ p.2 + 1

instance (p q : Nat × Nat) : Decidable (adj8 p q) := by
  unfold adj8
  infer_instance

/-- A foreground position of a mask: inside the grid with a nonzero pixel
(`cv2.connectedComponentsWithStats` treats every nonzero pixel as
foreground). -/
def fore (m : Img) (p : Nat × Nat) : Prop :=
  p.1 < m.h ∧ p.2 < m.w ∧ m.pix p.1 p.2 ≠ 0

instance (m : Img) (p : Nat × Nat) : Decidable (fore m p) := by
  unfold fore
  infer_instance

/-- Connectivity within the foreground of a mask: the reflexive-transitive
closure of 8-adjacency restricted to foreground pixels. -/
inductive Conn (m : Img) (p : Nat × Nat) : Nat × Nat → Prop where
  | refl : fore m p → Conn m p p
  | step : ∀ q r, Conn m p q → adj8 q r → fore m r → Conn m p r

theorem Conn.fore_left {m : Img} {p q : Nat × Nat} (h : Conn m p q) :
    fore m p := by
  induction h with
  | refl hp => exact hp
  | step q r hpq hadj hr ih => exact ih

theorem Conn.fore_right {m : Img} {p q : Nat × Nat} (h : Conn m p q) :
    fore m q := by
  induction h with
  | refl hp => exact hp
  | step q r hpq hadj hr ih => exact hr

theorem Conn.trans {m : Img} {p q r : Nat × Nat} (h1 : Conn m p q)
    (h2 : Conn m q r) : Conn m p r := by
  induction h2 with
  | refl hs => exact h1
  | step t u hqt hadj hu ih => exact Conn.step t u ih hadj hu

theorem adj8_symm {p q : Nat × Nat} (h : adj8 p q) : adj8 q p := by
  unfold adj8 at h ⊢
  exact ⟨Ne.symm h.1, h.2.2.1, h.2.1, h.2.2.2.2, h.2.2.2.1⟩

theorem Conn.symm {m : Img} {p q : Nat × Nat} (h : Conn m p q) :
    Conn m q p := by
  induction h with
  | refl hp => exact Conn.refl hp
  | step q r hpq hadj hr ih =>
    exact Conn.trans
      (Conn.step r q (Conn.refl hr) (adj8_symm hadj) hpq.fore_right) ih

/-- If all 8-adjacent foreground pairs carry equal labels (a decidable,
grid-bounded condition), then any two connected pixels carry equal labels. -/
theorem conn_label_eq {m labels : Img}
    (hC : ∀ y1, y1 < m.h → ∀ x1, x1 < m.w → ∀ y2, y2 < m.h → ∀ x2,
      x2 < m.w → m.pix y1 x1 ≠ 0 → m.pix y2 x2 ≠ 0 →
      adj8 (y1, x1) (y2, x2) → labels.pix y1 x1 = labels.pix y2 x2)
    {p q : Nat × Nat} (h : Conn m p q) :
    labels.pix p.1 p.2 = labels.pix q.1 q.2 := by
  induction h with
  | refl hp => rfl
  | step q r hpq hadj hr ih =>
    have hq : fore m q := hpq.fore_right
    refine ih.trans
      (hC q.1 hq.1 q.2 hq.2.1 r.1 hr.1 r.2 hr.2.1 hq.2.2 hr.2.2 ?_)
    simpa using hadj

theorem adj8_row (y t : Nat) : adj8 (y, t) (y, t + 1) := by
  refine ⟨?_, by omega, by omega, by omega, by omega⟩
  intro h
  rw [Prod.mk.injEq] at h
  omega

/-- All cells of a foreground row segment `[a, b]` are connected. -/
theorem conn_seg (m : Img) (y a b : Nat)
    (hf : ∀ t, a ≤ t → t ≤ b → fore m (y, t)) :
    ∀ u v, a ≤ u → u ≤ b → a ≤ v → v ≤ b → Conn m (y, u) (y, v) := by
  have hstep : ∀ k, a + k ≤ b → Conn m (y, a) (y, a + k) := by
    intro k
    induction k with
    | zero => intro hk; exact Conn.refl (hf a le_rfl (by omega))
    | succ k ih =>
      intro hk
      refine Conn.step _ _ (ih (by omega)) ?_ (hf (a + (k + 1)) (by omega)
        (by omega))
      have : a + (k + 1) = (a + k) + 1 := by omega
      rw [this]
      exact adj8_row y (a + k)
  intro u v hu1 hu2 hv1 hv2
  have hu : Conn m (y, a) (y, u) := by
    have : u = a + (u - a) := by omega
    rw [this]
    exact hstep (u - a) (by omega)
  have hv : Conn m (y, a) (y, v) := by
    have : v = a + (v - a) := by omega
    rw [this]
    exact hstep (v - a) (by omega)
  exact Conn.trans hu.symm hv

/-- Contract of `cv2.connectedComponentsWithStats(·, connectivity=8)`
relating a mask to a returned label map and label count. -/
structure IsCCLabeling (m labels : Img) (num_labels : Nat) : Prop where
  one_le : 1 ≤ num_labels
  h_eq : labels.h = m.h
  w_eq : labels.w = m.w
  bg : ∀ y, y < m.h → ∀ x, x < m.w →
    (labels.pix y x = 0 ↔ m.pix y x = 0)
  lt : ∀ y, y < m.h → ∀ x, x < m.w → labels.pix y x < num_labels
  nonempty : ∀ l, 1 ≤ l → l < num_labels →
    ∃ y, y < m.h ∧ ∃ x, x < m.w ∧ labels.pix y x = l
  conn_iff : ∀ p q : Nat × Nat, fore m p → fore m q →
    (labels.pix p.1 p.2 = labels.pix q.1 q.2 ↔ Conn m p q)

/-- `stats[l, cv2.CC_STAT_AREA]`: the number of grid positions carrying
label `l` (pixel count of component `l`; for `l = 0` the background area). -/
def areaOf (labels : Img) (l : Nat) : Nat :=
  (List.range (labels.h * labels.w)).countP
    (fun i => labels.pix (i / labels.w) (i % labels.w) == l)

/-- The column `stats[:, cv2.CC_STAT_AREA]` as a list indexed by label. -/
def cc_areas (labels : Img) (num_labels : Nat) : List Nat :=
  (List.range num_labels).map (areaOf labels)

/-- Models `np.argsort(v)` (default `kind='quicksort'`) as the stable
ascending sort of the indices by value.  NumPy's introsort dispatches to a
stable insertion sort for arrays shorter than 16 elements, so this model is
exact whenever there are fewer than 16 labels (quicksort gives no stability
guarantee for larger arrays). -/
def np_argsort (v : List Nat) : List Nat :=
  List.insertionSort (fun i j => v.getD i 0 ≤ v.getD j 0)
    (List.range v.length)

/-- `(labels == idx).astype(np.uint8) * 255`: the 0/255 mask of one label. -/
def maskOf (labels : Img) (idx : Nat) : Img :=
  mkImg labels.h labels.w (fun y x => if labels.pix y x = idx then 255 else 0)

/-- Embeds `extract_connected_lung_components` (src/main.ipynb) given the
labelling returned by the external `cv2.connectedComponentsWithStats` call:
`sorted_indices = np.argsort(stats[:, cv2.CC_STAT_AREA])[::-1][1:3]`
(reverse, then the slice `[1:3]`, i.e. drop one and take up to two — note
the ranking includes the background row 0), then one 0/255 mask per selected
index.  The seaborn label-map visualization has no effect on the returned
value and is not modelled. -/
def extract_connected_lung_components (labels : Img) (num_labels : Nat) :
    List Img :=
  (((np_argsort (cc_areas labels num_labels)).reverse.drop 1).take 2).map
    (maskOf labels)

/-- Following the words of claim C1 (and spec §4.3), not the code: rank the
NON-background components by area descending (ties: lower label first,
per the spec), skip the single largest non-background component, and return
the second- and third-ranked components as masks. -/
def spec_skip_largest_selection (labels : Img) (num_labels : Nat) :
    List Img :=
  let ranking := List.insertionSort
    (fun i j => areaOf labels j ≤ areaOf labels i)
    ((List.range num_labels).drop 1)
  ((ranking.drop 1).take 2).map (maskOf labels)

/-- Concrete 1 × 12 cleaned mask with three foreground components: columns
0–2 (area 3), 4–5 (area 2) and 7–8 (area 2); background area 5 (largest). -/
def mC14 : Img := ⟨1, 12, [255, 255, 255, 0, 255, 255, 0, 255, 255, 0, 0, 0]⟩

/-- The 8-connected labelling of `mC14` in raster order of first pixels. -/
def lC14 : Img := ⟨1, 12, [1, 1, 1, 0, 2, 2, 0, 3, 3, 0, 0, 0]⟩

theorem isCC_C14 : IsCCLabeling mC14 lC14 4 := by
  refine ⟨by decide, rfl, rfl, by decide, by decide, ?_, ?_⟩
  · intro l h1 h2
    interval_cases l
    · exact ⟨0, by decide, 0, by decide, by decide⟩
    · exact ⟨0, by decide, 4, by decide, by decide⟩
    · exact ⟨0, by decide, 7, by decide, by decide⟩
  · intro p q hp hq
    obtain ⟨py, px⟩ := p
    obtain ⟨qy, qx⟩ := q
    have hpy : py < 1 := hp.1
    have hqy : qy < 1 := hq.1
    have hpy0 : py = 0 := by omega
    have hqy0 : qy = 0 := by omega
    subst hpy0
    subst hqy0
    have hpx : px < 12 := hp.2.1
    have hqx : qx < 12 := hq.2.1
    have hpf : mC14.pix 0 px ≠ 0 := hp.2.2
    have hqf : mC14.pix 0 qx ≠ 0 := hq.2.2
    constructor
    · intro hlab
      have keyA : ∀ x, x < 12 → mC14.pix 0 x ≠ 0 →
          (lC14.pix 0 x = 1 ∧ x ≤ 2) ∨
          (lC14.pix 0 x = 2 ∧ 4 ≤ x ∧ x ≤ 5) ∨
          (lC14.pix 0 x = 3 ∧ 7 ≤ x ∧ x ≤ 8) := by decide
      rcases keyA px hpx hpf with
          ⟨hl1, hb1⟩ | ⟨hl1, hb1, hb2⟩ | ⟨hl1, hb1, hb2⟩ <;>
        rcases keyA qx hqx hqf with
          ⟨hl2, hc1⟩ | ⟨hl2, hc1, hc2⟩ | ⟨hl2, hc1, hc2⟩ <;>
        rw [hl1, hl2] at hlab
      · exact conn_seg mC14 0 0 2
          (fun t ht1 ht2 => by interval_cases t <;> decide)
          px qx (Nat.zero_le _) hb1 (Nat.zero_le _) hc1
      · exact absurd hlab (by decide)
      · exact absurd hlab (by decide)
      · exact absurd hlab (by decide)
      · exact conn_seg mC14 0 4 5
          (fun t ht1 ht2 => by interval_cases t <;> decide)
          px qx hb1 hb2 hc1 hc2
      · exact absurd hlab (by decide)
      · exact absurd hlab (by decide)
      · exact absurd hlab (by decide)
      · exact conn_seg mC14 0 7 8
          (fun t ht1 ht2 => by interval_cases t <;> decide)
          px qx hb1 hb2 hc1 hc2
    · intro hconn
      refine conn_label_eq ?_ hconn
      intro y1 hy1 x1 hx1 y2 hy2 x2 hx2 hf1 hf2 hadj
      have hy1n : y1 < 1 := hy1
      have hy2n : y2 < 1 := hy2
      have e1 : y1 = 0 := by omega
      have e2 : y2 = 0 := by omega
      subst e1
      subst e2
      have key2 : ∀ u, u < 12 → ∀ v, v < 12 → mC14.pix 0 u ≠ 0 →
          mC14.pix 0 v ≠ 0 → adj8 (0, u) (0, v) →
          lC14.pix 0 u = lC14.pix 0 v := by decide
      exact key2 x1 hx1 x2 hx2 hf1 hf2 hadj

/-- Concrete 1 × 5 cleaned mask with exactly two foreground components
(single pixels at columns 0 and 2); background area 3. -/
def mC3i : Img := ⟨1, 5, [255, 0, 255, 0, 0]⟩

/-- The 8-connected labelling of `mC3i`. -/
def lC3i : Img := ⟨1, 5, [1, 0, 2, 0, 0]⟩

theorem isCC_C3i : IsCCLabeling mC3i lC3i 3 := by
  refine ⟨by decide, rfl, rfl, by decide, by decide, ?_, ?_⟩
  · intro l h1 h2
    interval_cases l
    · exact ⟨0, by decide, 0, by decide, by decide⟩
    · exact ⟨0, by decide, 2, by decide, by decide⟩
  · intro p q hp hq
    obtain ⟨py, px⟩ := p
    obtain ⟨qy, qx⟩ := q
    have hpy : py < 1 := hp.1
    have hqy : qy < 1 := hq.1
    have hpy0 : py = 0 := by omega
    have hqy0 : qy = 0 := by omega
    subst hpy0
    subst hqy0
    have hpx : px < 5 := hp.2.1
    have hqx : qx < 5 := hq.2.1
    have hpf : mC3i.pix 0 px ≠ 0 := hp.2.2
    have hqf : mC3i.pix 0 qx ≠ 0 := hq.2.2
    constructor
    · intro hlab
      have keyA : ∀ x, x < 5 → mC3i.pix 0 x ≠ 0 →
          (lC3i.pix 0 x = 1 ∧ x = 0) ∨ (lC3i.pix 0 x = 2 ∧ x = 2) := by
        decide
      rcases keyA px hpx hpf with ⟨hl1, hb1⟩ | ⟨hl1, hb1⟩ <;>
        rcases keyA qx hqx hqf with ⟨hl2, hc1⟩ | ⟨hl2, hc1⟩ <;>
        rw [hl1, hl2] at hlab
      · subst hb1
        subst hc1
        exact Conn.refl (by decide)
      · exact absurd hlab (by decide)
      · exact absurd hlab (by decide)
      · subst hb1
        subst hc1
        exact Conn.refl (by decide)
    · intro hconn
      refine conn_label_eq ?_ hconn
      intro y1 hy1 x1 hx1 y2 hy2 x2 hx2 hf1 hf2 hadj
      have hy1n : y1 < 1 := hy1
      have hy2n : y2 < 1 := hy2
      have e1 : y1 = 0 := by omega
      have e2 : y2 = 0 := by omega
      subst e1
      subst e2
      have key2 : ∀ u, u < 5 → ∀ v, v < 5 → mC3i.pix 0 u ≠ 0 →
          mC3i.pix 0 v ≠ 0 → adj8 (0, u) (0, v) →
          lC3i.pix 0 u = lC3i.pix 0 v := by decide
      exact key2 x1 hx1 x2 hx2 hf1 hf2 hadj

/-- **C1, counterexample**: on the labelled mask `mC14` — three components
of areas 3, 2, 2 with a background of area 5 — the code ranks ALL rows of
`stats` including the background row, so it skips the background (rank 1)
and returns the masks of ranks 2 and 3 of that combined ranking, not the
second- and third-ranked NON-background components demanded by the claim:
the code returns the components of areas 3 and 2, the claim demands areas
2 and 2 (labels 2 and 3). -/
theorem C1_skip_largest_refuted :
    IsCCLabeling mC14 lC14 4 ∧ 4 ≤ 4 ∧
    extract_connected_lung_components lC14 4 ≠
      spec_skip_largest_selection lC14 4 ∧
    extract_connected_lung_components lC14 4 =
      [maskOf lC14 1, maskOf lC14 3] ∧
    spec_skip_largest_selection lC14 4 =
      [maskOf lC14 2, maskOf lC14 3] :=
  ⟨isCC_C14, by omega, by decide, by decide, by decide⟩

/-- **C4, counterexample**: labels 2 and 3 of `lC14` have equal area 2, yet
the extractor selects the mask of the HIGHER label 3 and not that of the
lower label 2: the ascending stable argsort is reversed, so ties surface in
descending label order, contradicting the claimed lower-label tie-break. -/
theorem C4_tie_break_refuted :
    IsCCLabeling mC14 lC14 4 ∧ areaOf lC14 2 = areaOf lC14 3 ∧ (2 : Nat) < 3 ∧
    extract_connected_lung_components lC14 4 =
      [maskOf lC14 1, maskOf lC14 3] ∧
    maskOf lC14 3 ∈ extract_connected_lung_components lC14 4 ∧
    maskOf lC14 2 ∉ extract_connected_lung_components lC14 4 :=
  ⟨isCC_C14, by decide, by omega, by decide, by decide, by decide⟩

/-- **C3, counterexample**: on the labelled mask `mC3i` with exactly two
non-background components the extractor does not fail — there is no
`InsufficientComponentsError` anywhere in the code — and returns a full
two-mask result (the slice `[1:3]` simply truncates). -/
theorem C3_no_insufficient_components_error :
    IsCCLabeling mC3i lC3i 3 ∧ 3 - 1 < 3 ∧
    extract_connected_lung_components lC3i 3 =
      [maskOf lC3i 2, maskOf lC3i 1] ∧
    (extract_connected_lung_components lC3i 3).length = 2 :=
  ⟨isCC_C3i, by omega, by decide, by decide⟩

/-- **C3, amended**: the extractor never raises; for a labelling with
`num_labels` labels (background included) it returns
`min 2 (num_labels - 1)` masks — two masks already whenever at least 2
labels besides the background exist, one or zero masks when the labelling
has fewer labels, never an error. -/
theorem C3_amended_no_failure (m labels : Img) (num_labels : Nat)
    (hcc : IsCCLabeling m labels num_labels) :
    (extract_connected_lung_components labels num_labels).length =
      min 2 (num_labels - 1) ∧
    (3 ≤ num_labels →
      (extract_connected_lung_components labels num_labels).length = 2) := by
  have hlen : (np_argsort (cc_areas labels num_labels)).length =
      num_labels := by
    unfold np_argsort
    rw [(List.perm_insertionSort _ _).length_eq, List.length_range]
    unfold cc_areas
    rw [List.length_map, List.length_range]
  have h1 : (extract_connected_lung_components labels num_labels).length =
      min 2 (num_labels - 1) := by
    unfold extract_connected_lung_components
    rw [List.length_map, List.length_take, List.length_drop,
      List.length_reverse, hlen]
  exact ⟨h1, fun h3 => by rw [h1]; omega⟩

/-- Witness for the amended C3 at the two-component instance `mC3i`. -/
theorem C3_amended_no_failure_witness :
    IsCCLabeling mC3i lC3i 3 ∧
    ((extract_connected_lung_components lC3i 3).length = min 2 (3 - 1) ∧
     (3 ≤ 3 → (extract_connected_lung_components lC3i 3).length = 2)) :=
  ⟨isCC_C3i, C3_amended_no_failure mC3i lC3i 3 isCC_C3i⟩

/-- The lexicographic order (value, then index) underlying a stable
ascending argsort. -/
def idxLex (f : Nat → Nat) (i j : Nat) : Prop :=
  f i < f j ∨ (f i = f j ∧ i ≤ j)

theorem idxLex_of_le_lt {f : Nat → Nat} {x z : Nat} (h1 : f x ≤ f z)
    (h2 : x < z) : idxLex f x z := by
  rcases Nat.lt_or_ge (f x) (f z) with h | h
  · exact Or.inl h
  · exact Or.inr ⟨Nat.le_antisymm h1 h, Nat.le_of_lt h2⟩

theorem idxLex_fle {f : Nat → Nat} {x z : Nat} (h : idxLex f x z) :
    f x ≤ f z := by
  rcases h with h | ⟨h, _⟩
  · exact Nat.le_of_lt h
  · exact Nat.le_of_eq h

/-- Inserting an element smaller (by original index) than everything in a
lexicographically sorted list by its value order keeps the list
lexicographically sorted — the stability step of insertion sort. -/
theorem orderedInsert_lex_sorted {f : Nat → Nat} (x : Nat) :
    ∀ l : List Nat, l.Sorted (idxLex f) → (∀ y ∈ l, x < y) →
      (List.orderedInsert (fun i j => f i ≤ f j) x l).Sorted (idxLex f) := by
  intro l
  induction l with
  | nil =>
    intro _ _
    simp [List.orderedInsert]
  | cons y t ih =>
    intro hs hlt
    rw [List.sorted_cons] at hs
    by_cases h : f x ≤ f y
    · simp only [List.orderedInsert, if_pos h]
      rw [List.sorted_cons]
      refine ⟨?_, List.sorted_cons.mpr hs⟩
      intro z hz
      rcases List.mem_cons.mp hz with rfl | hz'
      · exact idxLex_of_le_lt h (hlt z (List.mem_cons_self z t))
      · exact idxLex_of_le_lt
          (Nat.le_trans h (idxLex_fle (hs.1 z hz')))
          (hlt z (List.mem_cons_of_mem y hz'))
    · simp only [List.orderedInsert, if_neg h]
      rw [List.sorted_cons]
      refine ⟨?_, ih hs.2 (fun z hz => hlt z (List.mem_cons_of_mem y hz))⟩
      intro z hz
      rcases (List.mem_orderedInsert _).mp hz with rfl | hz'
      · exact Or.inl (Nat.lt_of_not_le h)
      · exact hs.1 z hz'

/-- On a strictly increasing index list, insertion sort by value produces a
lexicographically sorted list: this is the stability of the sort. -/
theorem insertionSort_lex_sorted {f : Nat → Nat} :
    ∀ l : List Nat, l.Pairwise (· < ·) →
      (List.insertionSort (fun i j => f i ≤ f j) l).Sorted (idxLex f) := by
  intro l
  induction l with
  | nil =>
    intro _
    simp [List.insertionSort]
  | cons x t ih =>
    intro hpw
    rw [List.pairwise_cons] at hpw
    simp only [List.insertionSort]
    refine orderedInsert_lex_sorted x _ (ih hpw.2) ?_
    intro y hy
    exact hpw.1 y ((List.perm_insertionSort _ t).mem_iff.mp hy)

/-- In a sorted list, an element strictly preceding another in the order
appears before it: the two-element sublist extraction. -/
theorem sorted_pair_sublist {r : Nat → Nat → Prop} :
    ∀ {s : List Nat}, s.Sorted r → ∀ {a b : Nat}, a ∈ s → b ∈ s →
      r a b → ¬r b a → [a, b].Sublist s := by
  intro s
  induction s with
  | nil =>
    intro _ a b ha _ _ _
    cases ha
  | cons x t ih =>
    intro hs a b ha hb hrab hnba
    rw [List.sorted_cons] at hs
    rcases List.mem_cons.mp ha with rfl | ha'
    · rcases List.mem_cons.mp hb with rfl | hb'
      · exact absurd hrab hnba
      · exact List.Sublist.cons₂ a (List.singleton_sublist.mpr hb')
    · rcases List.mem_cons.mp hb with rfl | hb'
      · exact absurd (hs.1 a ha') hnba
      · exact List.Sublist.cons x (ih hs.2 ha' hb' hrab hnba)

/-- `stats[:, CC_STAT_AREA]` lookups below `num_labels` are component
areas. -/
theorem cc_areas_getD {labels : Img} {num_labels i : Nat}
    (hi : i < num_labels) :
    (cc_areas labels num_labels).getD i 0 = areaOf labels i := by
  unfold cc_areas
  rw [List.getD_eq_getElem?_getD, List.getElem?_map, List.getElem?_range hi]
  rfl

/-- **C1, amended**: the extractor ranks ALL `stats` rows — the background
row 0 included — by area ascending with NumPy's stable argsort, reverses,
and takes ranks 2 and 3.  When the background is strictly the largest
component (the code's working assumption, true for the counterexample and
for the intended images), this selects the TWO LARGEST non-background
components (ties resolved toward the higher label), not the second- and
third-largest: the conclusion equates the extraction with the top two of
the descending ranking of the non-background labels. -/
theorem C1_amended_combined_ranking (m labels : Img) (num_labels : Nat)
    (hcc : IsCCLabeling m labels num_labels) (h4 : 4 ≤ num_labels)
    (hbg : ∀ l, l < num_labels → 1 ≤ l →
      areaOf labels l < areaOf labels 0) :
    extract_connected_lung_components labels num_labels =
      (((List.insertionSort
        (fun i j => (cc_areas labels num_labels).getD i 0 ≤
          (cc_areas labels num_labels).getD j 0)
        ((List.range num_labels).drop 1)).reverse).take 2).map
        (maskOf labels) ∧
    (List.insertionSort
      (fun i j => (cc_areas labels num_labels).getD i 0 ≤
        (cc_areas labels num_labels).getD j 0)
      ((List.range num_labels).drop 1)).Perm
      ((List.range num_labels).drop 1) ∧
    (∀ i, i < num_labels →
      (cc_areas labels num_labels).getD i 0 = areaOf labels i) := by
  obtain ⟨k, rfl⟩ : ∃ k, num_labels = k + 1 := ⟨num_labels - 1, by omega⟩
  have hvlen : (cc_areas labels (k + 1)).length = k + 1 := by
    unfold cc_areas
    rw [List.length_map, List.length_range]
  have hdrop : (List.range (k + 1)).drop 1 = (List.range k).map Nat.succ := by
    rw [List.range_succ_eq_map]
    rfl
  have hmem_drop : ∀ a ∈ (List.range (k + 1)).drop 1, 1 ≤ a ∧ a < k + 1 := by
    intro a ha
    rw [hdrop] at ha
    rcases List.mem_map.mp ha with ⟨b, hb, rfl⟩
    have := List.mem_range.mp hb
    exact ⟨by omega, by omega⟩
  haveI : IsAntisymm Nat (idxLex fun i => (cc_areas labels (k + 1)).getD i 0) :=
    ⟨by
      intro a b h1 h2
      unfold idxLex at h1 h2
      omega⟩
  have hperm_t : (List.insertionSort
      (fun i j => (cc_areas labels (k + 1)).getD i 0 ≤
        (cc_areas labels (k + 1)).getD j 0)
      ((List.range (k + 1)).drop 1)).Perm ((List.range (k + 1)).drop 1) :=
    List.perm_insertionSort _ _
  have hsorted_s : (List.insertionSort
      (fun i j => (cc_areas labels (k + 1)).getD i 0 ≤
        (cc_areas labels (k + 1)).getD j 0)
      (List.range (k + 1))).Sorted
      (idxLex fun i => (cc_areas labels (k + 1)).getD i 0) :=
    insertionSort_lex_sorted _ (List.pairwise_lt_range _)
  have hsorted_t : (List.insertionSort
      (fun i j => (cc_areas labels (k + 1)).getD i 0 ≤
        (cc_areas labels (k + 1)).getD j 0)
      ((List.range (k + 1)).drop 1)).Sorted
      (idxLex fun i => (cc_areas labels (k + 1)).getD i 0) :=
    insertionSort_lex_sorted _
      ((List.pairwise_lt_range (k + 1)).sublist (List.drop_sublist 1 _))
  have key : List.insertionSort
      (fun i j => (cc_areas labels (k + 1)).getD i 0 ≤
        (cc_areas labels (k + 1)).getD j 0) (List.range (k + 1)) =
      List.insertionSort
        (fun i j => (cc_areas labels (k + 1)).getD i 0 ≤
          (cc_areas labels (k + 1)).getD j 0)
        ((List.range (k + 1)).drop 1) ++ [0] := by
    refine List.eq_of_perm_of_sorted ?_ hsorted_s ?_
    · refine (List.perm_insertionSort _ _).trans (List.Perm.symm ?_)
      refine (List.Perm.append_right [0] hperm_t).trans ?_
      refine (List.perm_append_singleton 0 _).trans ?_
      rw [hdrop, List.range_succ_eq_map]
    · refine List.pairwise_append.mpr ⟨hsorted_t, List.pairwise_singleton _ _,
        ?_⟩
      intro a ha b hb
      rcases List.mem_singleton.mp hb with rfl
      have hmem := hmem_drop a (hperm_t.mem_iff.mp ha)
      refine Or.inl ?_
      show (cc_areas labels (k + 1)).getD a 0 <
        (cc_areas labels (k + 1)).getD 0 0
      rw [cc_areas_getD hmem.2, cc_areas_getD (by omega : 0 < k + 1)]
      exact hbg a hmem.2 hmem.1
  refine ⟨?_, hperm_t, fun i hi => cc_areas_getD hi⟩
  unfold extract_connected_lung_components np_argsort
  rw [hvlen, key, List.reverse_append]
  simp only [List.reverse_cons, List.reverse_nil, List.nil_append,
    List.singleton_append, List.drop_succ_cons, List.drop_zero]

/-- Witness for the amended C1 at the instance `mC14` (background area 5 is
strictly the largest). -/
theorem C1_amended_combined_ranking_witness :
    (IsCCLabeling mC14 lC14 4 ∧ 4 ≤ 4 ∧
      (∀ l, l < 4 → 1 ≤ l → areaOf lC14 l < areaOf lC14 0)) ∧
    (extract_connected_lung_components lC14 4 =
      (((List.insertionSort
        (fun i j => (cc_areas lC14 4).getD i 0 ≤ (cc_areas lC14 4).getD j 0)
        ((List.range 4).drop 1)).reverse).take 2).map (maskOf lC14) ∧
    (List.insertionSort
      (fun i j => (cc_areas lC14 4).getD i 0 ≤ (cc_areas lC14 4).getD j 0)
      ((List.range 4).drop 1)).Perm ((List.range 4).drop 1) ∧
    (∀ i, i < 4 → (cc_areas lC14 4).getD i 0 = areaOf lC14 i)) :=
  ⟨⟨isCC_C14, by omega, by decide⟩,
   C1_amended_combined_ranking mC14 lC14 4 isCC_C14 (by omega) (by decide)⟩

/-- **C4, amended**: the ranking is `np.argsort(...)[::-1]` — a stable
ASCENDING argsort followed by reversal — so ties between equal-area labels
are broken toward the HIGHER label id, not the lower: for any two labels
`i < j` of equal area, `j` precedes `i` in the reversed (descending)
ranking the extractor consumes. -/
theorem C4_amended_tie_higher_label (labels : Img) (num_labels i j : Nat)
    (hij : i < j) (hj : j < num_labels)
    (htie : areaOf labels i = areaOf labels j) :
    [j, i].Sublist (np_argsort (cc_areas labels num_labels)).reverse := by
  have hvlen : (cc_areas labels num_labels).length = num_labels := by
    unfold cc_areas
    rw [List.length_map, List.length_range]
  have hsorted : (np_argsort (cc_areas labels num_labels)).Sorted
      (idxLex fun a => (cc_areas labels num_labels).getD a 0) := by
    unfold np_argsort
    exact insertionSort_lex_sorted _ (List.pairwise_lt_range _)
  have hmem : ∀ a, a < num_labels →
      a ∈ np_argsort (cc_areas labels num_labels) := by
    intro a ha
    unfold np_argsort
    rw [(List.perm_insertionSort _ _).mem_iff, List.mem_range, hvlen]
    exact ha
  have hfi : (cc_areas labels num_labels).getD i 0 = areaOf labels i :=
    cc_areas_getD (Nat.lt_trans hij hj)
  have hfj : (cc_areas labels num_labels).getD j 0 = areaOf labels j :=
    cc_areas_getD hj
  have hrij : idxLex (fun a => (cc_areas labels num_labels).getD a 0) i j :=
    Or.inr ⟨by
      show (cc_areas labels num_labels).getD i 0 =
        (cc_areas labels num_labels).getD j 0
      rw [hfi, hfj, htie], Nat.le_of_lt hij⟩
  have hnji : ¬ idxLex (fun a => (cc_areas labels num_labels).getD a 0) j i := by
    intro h
    rcases h with h | ⟨_, h⟩
    · have h2 : (cc_areas labels num_labels).getD j 0 <
        (cc_areas labels num_labels).getD i 0 := h
      rw [hfi, hfj] at h2
      omega
    · omega
  have hsub : [i, j].Sublist (np_argsort (cc_areas labels num_labels)) :=
    sorted_pair_sublist hsorted (hmem i (Nat.lt_trans hij hj)) (hmem j hj)
      hrij hnji
  simpa using hsub.reverse

/-- Witness for the amended C4 at `lC14`: labels 2 and 3 both have area 2,
and 3 precedes 2 in the reversed ranking. -/
theorem C4_amended_tie_higher_label_witness :
    (2 < 3 ∧ 3 < 4 ∧ areaOf lC14 2 = areaOf lC14 3) ∧
    [3, 2].Sublist (np_argsort (cc_areas lC14 4)).reverse :=
  ⟨⟨by decide, by decide, by decide⟩,
    C4_amended_tie_higher_label lC14 4 2 3 (by decide) (by decide)
      (by decide)⟩

/-- One entry of the list returned by `process_lung_image`: the dictionary
with keys `Lung Label`, `Sector Statistics` and `Total Kct`. -/
structure LungResult where
  lung_label : String
  sector_statistics : List SectorData
  total_kct : Nat

/-- The projection-dependent label assignment inside `process_lung_image`:
`some` labels for the two accepted designations, `none` standing for the
`raise ValueError(...)` branch (message: Invalid projection type. Use
anterior or posterior.). -/
def lung_labels_for (projection_type : String) : Option (List String) :=
  if projection_type = "anterior" then some ["Left Lung", "Right Lung"]
  else if projection_type = "posterior" then some ["Left Lung", "Right Lung"]
  else none

/-- Embeds `process_lung_image` (src/main.ipynb).  Both `cv2.imread` calls
read the same file, so both are modelled by the single `image` argument;
the external `cv2.connectedComponentsWithStats` call used by
`extract_connected_lung_components` is abstracted as the parameter `ccl`
returning the labelling and the number of labels.  The `ValueError` is an
`Except.error`. -/
def process_lung_image (ccl : Img → Img × Nat) (image : Img)
    (projection_type : String) : Except String (List LungResult) :=
  match lung_labels_for projection_type with
  | none => Except.error "Invalid projection type."
  | some lung_labels =>
      Except.ok
        ((List.zip
          (extract_connected_lung_components
            (ccl (apply_morphological_operations
              (load_and_binarize_image image))).1
            (ccl (apply_morphological_operations
              (load_and_binarize_image image))).2)
          lung_labels).map
          (fun p =>
            ⟨p.2,
             (compute_sector_statistics (define_adaptive_lung_sectors p.1)
               image p.2).1,
             (compute_sector_statistics (define_adaptive_lung_sectors p.1)
               image p.2).2⟩))

/-- **C10**: the projection designation is only validated, never used: both
accepted values map to the label pair ["Left Lung", "Right Lung"], and the
full pipeline returns identical output for "anterior" and "posterior" on
every input image and every component labelling. -/
theorem C10_projection_independence :
    ∀ (ccl : Img → Img × Nat) (image : Img),
      lung_labels_for "anterior" = some ["Left Lung", "Right Lung"] ∧
      lung_labels_for "posterior" = some ["Left Lung", "Right Lung"] ∧
      process_lung_image ccl image "anterior" =
        process_lung_image ccl image "posterior" := by
  intro ccl image
  refine ⟨rfl, rfl, ?_⟩
  unfold process_lung_image
  rfl
